import Mathlib

/-!
# Frag addresses (`src/include/ceph_frag.h`)

A frag is a 32-bit word: the 8 upper bits hold the depth ("bits"), the 24
lower bits hold the value.  The header is a set of pure `static inline`
functions over `__u32`; each is embedded below as a function on `Nat`
with every C operation truncated to 32 bits where the C type does so.

Conventions of the embedding:
* a `__u32` is a `Nat` below `2^32`; the theorems carry that bound as a
  hypothesis where it matters;
* `a + b`, `a - b`, `a << s` on `__u32` are `add32`, `sub32`, `shl32`;
* a C `int` used as a truth value is a `Bool`;
* the `int` parameters of `ceph_frag_make_child` are `Int`, converted with
  `u32_of_int` / `int_of_u32` (two's complement);
* `0x1000000 >> n` is the `Nat` shift `0x1000000 >>> n`; C defines it for
  `n < 32` only, and every theorem below keeps the depth within `0..24`, so the
  value the embedding gives to an undefined shift is never relied on.
-/

namespace CephFrag

/-! ## Machine arithmetic -/

/-- Addition on `__u32`. -/
def add32 (a b : Nat) : Nat := (a + b) % 2 ^ 32

/-- Subtraction on `__u32` (wraps below zero). -/
def sub32 (a b : Nat) : Nat := (a % 2 ^ 32 + 2 ^ 32 - b % 2 ^ 32) % 2 ^ 32

/-- Left shift on `__u32`: the bits shifted past position 31 are lost.  C leaves a
shift by 32 or more undefined; the embedding gives it the arithmetic value
`x * 2^s mod 2^32`, which is `0`. -/
def shl32 (x s : Nat) : Nat := if s < 32 then (x <<< s) % 2 ^ 32 else 0

/-- Conversion of a C `int` to `__u32`. -/
def u32_of_int (x : Int) : Nat := (x % 2 ^ 32).toNat

/-- Conversion of a `__u32` to a C `int` (two's complement). -/
def int_of_u32 (n : Nat) : Int :=
  if n % 2 ^ 32 < 2 ^ 31 then ((n % 2 ^ 32 : Nat) : Int) else ((n % 2 ^ 32 : Nat) : Int) - 2 ^ 32

/-- Left shift `i << s` on C `int`, for `0 ≤ s < 32`, wrapped to 32 bits; a shift
amount outside that range (undefined in C) yields `0`. -/
def shl_int (i s : Int) : Int :=
  if 0 ≤ s ∧ s < 32 then int_of_u32 (shl32 (u32_of_int i) s.toNat) else 0

/-! ## The functions of `ceph_frag.h` -/

/-- `ceph_frag_make(b, v)`:
`(b << 24) | (v & (0xffffffu << (24-b)) & 0xffffffu)`. -/
def ceph_frag_make (b v : Nat) : Nat :=
  shl32 b 24 ||| (v &&& shl32 0xffffff (sub32 24 b) &&& 0xffffff)

/-- `ceph_frag_bits(f)`: `f >> 24`. -/
def ceph_frag_bits (f : Nat) : Nat := f >>> 24

/-- `ceph_frag_value(f)`: `f & 0xffffffu`. -/
def ceph_frag_value (f : Nat) : Nat := f &&& 0xffffff

/-- `ceph_frag_mask(f)`: `(0xffffffu << (24-ceph_frag_bits(f))) & 0xffffffu`. -/
def ceph_frag_mask (f : Nat) : Nat :=
  shl32 0xffffff (sub32 24 (ceph_frag_bits f)) &&& 0xffffff

/-- `ceph_frag_mask_shift(f)`: `24 - ceph_frag_bits(f)`. -/
def ceph_frag_mask_shift (f : Nat) : Nat := sub32 24 (ceph_frag_bits f)

/-- `ceph_frag_contains_value(f, v)`:
`(v & ceph_frag_mask(f)) == ceph_frag_value(f)`. -/
def ceph_frag_contains_value (f v : Nat) : Bool :=
  (v &&& ceph_frag_mask f) == ceph_frag_value f

/-- `ceph_frag_contains_frag(f, sub)`: is `sub` as specific as `f`, and contained
by `f`? -/
def ceph_frag_contains_frag (f sub : Nat) : Bool :=
  decide (ceph_frag_bits sub ≥ ceph_frag_bits f) &&
    ((ceph_frag_value sub &&& ceph_frag_mask f) == ceph_frag_value f)

/-- `ceph_frag_parent(f)`:
`ceph_frag_make(ceph_frag_bits(f) - 1, ceph_frag_value(f) & (ceph_frag_mask(f) << 1))`. -/
def ceph_frag_parent (f : Nat) : Nat :=
  ceph_frag_make (sub32 (ceph_frag_bits f) 1)
    (ceph_frag_value f &&& shl32 (ceph_frag_mask f) 1)

/-- `ceph_frag_is_left_child(f)`:
`ceph_frag_bits(f) > 0 && (ceph_frag_value(f) & (0x1000000 >> ceph_frag_bits(f))) == 0`. -/
def ceph_frag_is_left_child (f : Nat) : Bool :=
  decide (ceph_frag_bits f > 0) &&
    ((ceph_frag_value f &&& (0x1000000 >>> ceph_frag_bits f)) == 0)

/-- `ceph_frag_is_right_child(f)`:
`ceph_frag_bits(f) > 0 && (ceph_frag_value(f) & (0x1000000 >> ceph_frag_bits(f))) == 1`. -/
def ceph_frag_is_right_child (f : Nat) : Bool :=
  decide (ceph_frag_bits f > 0) &&
    ((ceph_frag_value f &&& (0x1000000 >>> ceph_frag_bits f)) == 1)

/-- `ceph_frag_sibling(f)`:
`ceph_frag_make(ceph_frag_bits(f), ceph_frag_value(f) ^ (0x1000000 >> ceph_frag_bits(f)))`. -/
def ceph_frag_sibling (f : Nat) : Nat :=
  ceph_frag_make (ceph_frag_bits f)
    (ceph_frag_value f ^^^ (0x1000000 >>> ceph_frag_bits f))

/-- `ceph_frag_left_child(f)`:
`ceph_frag_make(ceph_frag_bits(f)+1, ceph_frag_value(f))`. -/
def ceph_frag_left_child (f : Nat) : Nat :=
  ceph_frag_make (add32 (ceph_frag_bits f) 1) (ceph_frag_value f)

/-- `ceph_frag_right_child(f)`:
`ceph_frag_make(ceph_frag_bits(f)+1, ceph_frag_value(f) | (0x1000000 >> (1+ceph_frag_bits(f))))`. -/
def ceph_frag_right_child (f : Nat) : Nat :=
  ceph_frag_make (add32 (ceph_frag_bits f) 1)
    (ceph_frag_value f ||| (0x1000000 >>> add32 1 (ceph_frag_bits f)))

/-- `ceph_frag_make_child(f, by, i)` with `int by, int i`:
`int newbits = ceph_frag_bits(f) + by;`
`return ceph_frag_make(newbits, ceph_frag_value(f) | (i << (24 - newbits)));` -/
def ceph_frag_make_child (f : Nat) (by_ i : Int) : Nat :=
  let newbits : Int := int_of_u32 (add32 (ceph_frag_bits f) (u32_of_int by_))
  ceph_frag_make (u32_of_int newbits)
    (ceph_frag_value f ||| u32_of_int (shl_int i (int_of_u32 (u32_of_int (24 - newbits)))))

/-- `ceph_frag_is_leftmost(f)`: `ceph_frag_value(f) == 0`. -/
def ceph_frag_is_leftmost (f : Nat) : Bool := ceph_frag_value f == 0

/-- `ceph_frag_is_rightmost(f)`: `ceph_frag_value(f) == ceph_frag_mask(f)`. -/
def ceph_frag_is_rightmost (f : Nat) : Bool := ceph_frag_value f == ceph_frag_mask f

/-- `ceph_frag_next(f)`:
`ceph_frag_make(ceph_frag_bits(f), ceph_frag_value(f) + (0x1000000 >> ceph_frag_bits(f)))`. -/
def ceph_frag_next (f : Nat) : Nat :=
  ceph_frag_make (ceph_frag_bits f)
    (add32 (ceph_frag_value f) (0x1000000 >>> ceph_frag_bits f))

/-! ## Well-formed frags -/

/-- A well-formed frag: a 32-bit word whose depth field is at most 24 and whose low
`24 - depth` value bits are zero. -/
def wellFormed (f : Nat) : Prop :=
  f < 2 ^ 32 ∧ ceph_frag_bits f ≤ 24 ∧
    ceph_frag_value f % 2 ^ (24 - ceph_frag_bits f) = 0

instance (f : Nat) : Decidable (wellFormed f) := by
  unfold wellFormed; infer_instance

/-- `ceph_frag_next` applied `k` times. -/
def next_iter : Nat → Nat → Nat
  | 0, f => f
  | k + 1, f => ceph_frag_next (next_iter k f)

/-- The packed word of depth `d` whose value is `a` steps of `2^(24-d)` from the left
edge: the `a`-th frag of depth `d`. -/
def node (d a : Nat) : Nat := d * 2 ^ 24 + a * 2 ^ (24 - d)

/-- `ceph_frag_left_child` applied `k` times. -/
def left_iter : Nat → Nat → Nat
  | 0, f => f
  | k + 1, f => ceph_frag_left_child (left_iter k f)

/-- `ceph_frag_right_child` applied `k` times. -/
def right_iter : Nat → Nat → Nat
  | 0, f => f
  | k + 1, f => ceph_frag_right_child (right_iter k f)

/-- Modelled from the spec: the body of `ceph_frag_compare`, which the header only
declares (`int ceph_frag_compare(__u32 a, __u32 b);`).  The spec asks for the order
of the left-to-right traversal of the trie: compare the prefixes of the two values
up to the shorter depth, then break ties using depth, so that a prefix is ordered
before any of its descendants. -/
def ceph_frag_compare (a b : Nat) : Ordering :=
  let m := min (ceph_frag_bits a) (ceph_frag_bits b)
  let pa := ceph_frag_value a >>> (24 - m)
  let pb := ceph_frag_value b >>> (24 - m)
  if pa < pb then Ordering.lt
  else if pb < pa then Ordering.gt
  else if ceph_frag_bits a < ceph_frag_bits b then Ordering.lt
  else if ceph_frag_bits b < ceph_frag_bits a then Ordering.gt
  else Ordering.eq

/-! ## Arithmetic reading of the bit operations -/

theorem testBit_block (n k j : Nat) (h : k ≤ n) :
    (2 ^ n - 2 ^ k).testBit j = decide (k ≤ j ∧ j < n) := by
  have e : 2 ^ n - 2 ^ k = 2 ^ k * (2 ^ (n - k) - 1) := by
    rw [Nat.mul_sub, ← pow_add, Nat.add_sub_cancel' h, mul_one]
  rw [e, Nat.testBit_mul_pow_two, Nat.testBit_two_pow_sub_one]
  by_cases hj : k ≤ j
  · have e3 : (j - k < n - k) ↔ j < n := by omega
    simp [hj, e3]
  · simp [hj]

theorem and_block (x n k : Nat) (h : k ≤ n) :
    x &&& (2 ^ n - 2 ^ k) = x % 2 ^ n / 2 ^ k * 2 ^ k := by
  apply Nat.eq_of_testBit_eq
  intro j
  rw [Nat.mul_comm (x % 2 ^ n / 2 ^ k), ← Nat.shiftRight_eq_div_pow]
  simp only [Nat.testBit_and, testBit_block n k j h, Nat.testBit_mul_pow_two,
    Nat.testBit_shiftRight, Nat.testBit_mod_two_pow]
  by_cases hj : k ≤ j
  · have e2 : k + (j - k) = j := by omega
    by_cases hn : j < n <;> simp [hj, hn, e2]
  · simp [hj]

theorem testBit_split (hi b lo k j : Nat) (hb : b < 2) (hlo : lo < 2 ^ k) :
    (2 ^ (k + 1) * hi + (2 ^ k * b + lo)).testBit j =
      if j < k then lo.testBit j else if j = k then decide (b = 1)
      else hi.testBit (j - (k + 1)) := by
  have h1 : 2 ^ k * b + lo < 2 ^ (k + 1) := by
    have : 2 ^ k * b ≤ 2 ^ k * 1 := Nat.mul_le_mul_left _ (by omega)
    rw [pow_succ]; omega
  rw [Nat.testBit_mul_pow_two_add _ h1, Nat.testBit_mul_pow_two_add _ hlo]
  by_cases hjk : j < k
  · have : j < k + 1 := by omega
    simp [hjk, this]
  · by_cases hje : j = k
    · subst hje
      have hb' : b = 0 ∨ b = 1 := by omega
      rcases hb' with rfl | rfl <;> simp
    · have : ¬ j < k + 1 := by omega
      simp [hjk, hje, this]

theorem bit_decomp (x k : Nat) :
    x = 2 ^ (k + 1) * (x / 2 ^ (k + 1)) + (2 ^ k * (x / 2 ^ k % 2) + x % 2 ^ k) := by
  have h := Nat.div_add_mod x (2 ^ (k + 1))
  rw [Nat.mod_pow_succ] at h
  omega

theorem and_bit (x k : Nat) : x &&& 2 ^ k = x / 2 ^ k % 2 * 2 ^ k := by
  have hb : x / 2 ^ k % 2 < 2 := Nat.mod_lt _ (by decide)
  have hlo : x % 2 ^ k < 2 ^ k := Nat.mod_lt _ (by positivity)
  have e : x / 2 ^ k % 2 * 2 ^ k = 2 ^ (k + 1) * 0 + (2 ^ k * (x / 2 ^ k % 2) + 0) := by
    rw [Nat.mul_comm]; simp
  apply Nat.eq_of_testBit_eq
  intro j
  rw [e, Nat.testBit_and, Nat.testBit_two_pow, testBit_split _ _ _ k j hb (by positivity)]
  conv_lhs => rw [bit_decomp x k, testBit_split _ _ _ k j hb hlo]
  by_cases hjk : j < k
  · have : ¬ k = j := by omega
    simp [hjk, this]
  · by_cases hje : j = k
    · simp [hje]
    · have : ¬ k = j := by omega
      simp [hjk, hje, this]

theorem or_bit (x k : Nat) : x ||| 2 ^ k = x + 2 ^ k - x / 2 ^ k % 2 * 2 ^ k := by
  have hb : x / 2 ^ k % 2 < 2 := Nat.mod_lt _ (by decide)
  have hlo : x % 2 ^ k < 2 ^ k := Nat.mod_lt _ (by positivity)
  have e : x + 2 ^ k - x / 2 ^ k % 2 * 2 ^ k =
      2 ^ (k + 1) * (x / 2 ^ (k + 1)) + (2 ^ k * 1 + x % 2 ^ k) := by
    have := bit_decomp x k
    rw [Nat.mul_comm (x / 2 ^ k % 2)]
    omega
  apply Nat.eq_of_testBit_eq
  intro j
  rw [e, Nat.testBit_or, Nat.testBit_two_pow, testBit_split _ _ _ k j (by decide) hlo]
  conv_lhs => rw [bit_decomp x k, testBit_split _ _ _ k j hb hlo]
  by_cases hjk : j < k
  · have : ¬ k = j := by omega
    simp [hjk, this]
  · by_cases hje : j = k
    · simp [hje]
    · have : ¬ k = j := by omega
      simp [hjk, hje, this]

theorem xor_bit (x k : Nat) : x ^^^ 2 ^ k = x + 2 ^ k - 2 * (x / 2 ^ k % 2 * 2 ^ k) := by
  have hb : x / 2 ^ k % 2 < 2 := Nat.mod_lt _ (by decide)
  have hlo : x % 2 ^ k < 2 ^ k := Nat.mod_lt _ (by positivity)
  have e : x + 2 ^ k - 2 * (x / 2 ^ k % 2 * 2 ^ k) =
      2 ^ (k + 1) * (x / 2 ^ (k + 1)) + (2 ^ k * (1 - x / 2 ^ k % 2) + x % 2 ^ k) := by
    have := bit_decomp x k
    rw [Nat.mul_comm (x / 2 ^ k % 2)]
    have hb' : x / 2 ^ k % 2 = 0 ∨ x / 2 ^ k % 2 = 1 := by omega
    rcases hb' with h | h <;> rw [h] at this ⊢ <;> omega
  apply Nat.eq_of_testBit_eq
  intro j
  rw [e, Nat.testBit_xor, Nat.testBit_two_pow, testBit_split _ _ _ k j (by omega) hlo]
  conv_lhs => rw [bit_decomp x k, testBit_split _ _ _ k j hb hlo]
  by_cases hjk : j < k
  · have : ¬ k = j := by omega
    simp [hjk, this]
  · by_cases hje : j = k
    · have hb' : x / 2 ^ k % 2 = 0 ∨ x / 2 ^ k % 2 = 1 := by omega
      rcases hb' with h | h <;> simp [hje, h]
    · have : ¬ k = j := by omega
      simp [hjk, hje, this]

theorem bits_eq (f : Nat) : ceph_frag_bits f = f / 2 ^ 24 := by
  unfold ceph_frag_bits; exact Nat.shiftRight_eq_div_pow f 24

theorem value_eq (f : Nat) : ceph_frag_value f = f % 2 ^ 24 := by
  unfold ceph_frag_value
  exact Nat.and_pow_two_sub_one_eq_mod f 24

theorem mask_depth (d : Nat) (h : d ≤ 24) :
    shl32 0xffffff (sub32 24 d) &&& 0xffffff = 2 ^ 24 - 2 ^ (24 - d) := by
  interval_cases d <;> rfl

theorem mask_eq (f : Nat) (h : ceph_frag_bits f ≤ 24) :
    ceph_frag_mask f = 2 ^ 24 - 2 ^ (24 - ceph_frag_bits f) := by
  unfold ceph_frag_mask; exact mask_depth _ h

theorem and_mask (v d : Nat) (h : d ≤ 24) :
    v &&& shl32 0xffffff (sub32 24 d) &&& 0xffffff = v % 2 ^ 24 / 2 ^ (24 - d) * 2 ^ (24 - d) := by
  rw [Nat.and_assoc, mask_depth d h, and_block v 24 (24 - d) (by omega)]

theorem make_eq (d v : Nat) (h : d ≤ 24) :
    ceph_frag_make d v = d * 2 ^ 24 + v % 2 ^ 24 / 2 ^ (24 - d) * 2 ^ (24 - d) := by
  unfold ceph_frag_make
  rw [and_mask v d h]
  have hs : shl32 d 24 = 2 ^ 24 * d := by
    unfold shl32
    rw [if_pos (by decide), Nat.shiftLeft_eq, Nat.mod_eq_of_lt (by omega), Nat.mul_comm]
  have hlt : v % 2 ^ 24 / 2 ^ (24 - d) * 2 ^ (24 - d) < 2 ^ 24 :=
    lt_of_le_of_lt (Nat.div_mul_le_self _ _) (Nat.mod_lt _ (by positivity))
  rw [hs, ← Nat.mul_add_lt_is_or hlt, Nat.mul_comm]

theorem make_bits (d v : Nat) (h : d ≤ 24) : ceph_frag_bits (ceph_frag_make d v) = d := by
  rw [bits_eq, make_eq d v h]
  have hlt : v % 2 ^ 24 / 2 ^ (24 - d) * 2 ^ (24 - d) < 2 ^ 24 :=
    lt_of_le_of_lt (Nat.div_mul_le_self _ _) (Nat.mod_lt _ (by positivity))
  generalize v % 2 ^ 24 / 2 ^ (24 - d) * 2 ^ (24 - d) = x at hlt
  omega

theorem make_value (d v : Nat) (h : d ≤ 24) :
    ceph_frag_value (ceph_frag_make d v) = v % 2 ^ 24 / 2 ^ (24 - d) * 2 ^ (24 - d) := by
  rw [value_eq, make_eq d v h]
  have hlt : v % 2 ^ 24 / 2 ^ (24 - d) * 2 ^ (24 - d) < 2 ^ 24 :=
    lt_of_le_of_lt (Nat.div_mul_le_self _ _) (Nat.mod_lt _ (by positivity))
  generalize v % 2 ^ 24 / 2 ^ (24 - d) * 2 ^ (24 - d) = x at hlt
  omega

theorem make_wellFormed (d v : Nat) (h : d ≤ 24) : wellFormed (ceph_frag_make d v) := by
  refine ⟨?_, ?_, ?_⟩
  · rw [make_eq d v h]
    have hlt : v % 2 ^ 24 / 2 ^ (24 - d) * 2 ^ (24 - d) < 2 ^ 24 :=
      lt_of_le_of_lt (Nat.div_mul_le_self _ _) (Nat.mod_lt _ (by positivity))
    generalize v % 2 ^ 24 / 2 ^ (24 - d) * 2 ^ (24 - d) = x at hlt
    omega
  · rw [make_bits d v h]; exact h
  · rw [make_bits d v h, make_value d v h]
    exact Nat.mul_mod_left _ _

/-- A well-formed frag is its depth times `2^24` plus its value. -/
theorem frag_decomp (f : Nat) :
    f = ceph_frag_bits f * 2 ^ 24 + ceph_frag_value f := by
  rw [bits_eq, value_eq]; omega

/-! ## Frags as trie nodes

A well-formed frag of depth `d` is `node d a` for a unique index `a < 2^d`: the
`a`-th frag of depth `d`, counted from the left.  The lemmas below read every
function of the header on nodes. -/

theorem pow_split (d : Nat) (h : d ≤ 24) : 2 ^ 24 = 2 ^ d * 2 ^ (24 - d) := by
  rw [← pow_add]; congr 1; omega

theorem node_lt (d a : Nat) (hd : d ≤ 24) (ha : a < 2 ^ d) : a * 2 ^ (24 - d) < 2 ^ 24 := by
  rw [pow_split d hd]
  exact Nat.mul_lt_mul_of_pos_right ha (by positivity)

theorem node_bits (d a : Nat) (hd : d ≤ 24) (ha : a < 2 ^ d) :
    ceph_frag_bits (node d a) = d := by
  have := node_lt d a hd ha
  rw [bits_eq]; unfold node; omega

theorem node_value (d a : Nat) (hd : d ≤ 24) (ha : a < 2 ^ d) :
    ceph_frag_value (node d a) = a * 2 ^ (24 - d) := by
  have := node_lt d a hd ha
  rw [value_eq]; unfold node; omega

theorem node_wellFormed (d a : Nat) (hd : d ≤ 24) (ha : a < 2 ^ d) : wellFormed (node d a) := by
  refine ⟨?_, ?_, ?_⟩
  · have := node_lt d a hd ha
    unfold node; omega
  · rw [node_bits d a hd ha]; exact hd
  · rw [node_bits d a hd ha, node_value d a hd ha]; exact Nat.mul_mod_left _ _

theorem wf_cases (f : Nat) (hf : wellFormed f) :
    ∃ d a, d ≤ 24 ∧ a < 2 ^ d ∧ f = node d a := by
  obtain ⟨_, hb, hz⟩ := hf
  have hv : ceph_frag_value f < 2 ^ 24 := by
    rw [value_eq]; exact Nat.mod_lt _ (by positivity)
  have he : ceph_frag_value f / 2 ^ (24 - ceph_frag_bits f) * 2 ^ (24 - ceph_frag_bits f)
      = ceph_frag_value f := Nat.div_mul_cancel (Nat.dvd_of_mod_eq_zero hz)
  refine ⟨ceph_frag_bits f, ceph_frag_value f / 2 ^ (24 - ceph_frag_bits f), hb, ?_, ?_⟩
  · rw [← he, pow_split _ hb] at hv
    exact Nat.lt_of_mul_lt_mul_right hv
  · unfold node; rw [he]; exact frag_decomp f

theorem make_eq_node (d v : Nat) (h : d ≤ 24) :
    ceph_frag_make d v = node d (v % 2 ^ 24 / 2 ^ (24 - d)) := make_eq d v h

theorem make_node (d a : Nat) (hd : d ≤ 24) (ha : a < 2 ^ d) :
    ceph_frag_make d (a * 2 ^ (24 - d)) = node d a := by
  rw [make_eq_node d _ hd, Nat.mod_eq_of_lt (node_lt d a hd ha),
    Nat.mul_div_cancel _ (by positivity)]

theorem shr_bit (n : Nat) (h : n ≤ 24) : 0x1000000 >>> n = 2 ^ (24 - n) := by
  rw [Nat.shiftRight_eq_div_pow, show (0x1000000 : Nat) = 2 ^ 24 by rfl, Nat.pow_div h (by decide)]

theorem step_double (d : Nat) (h : d ≤ 23) : 2 ^ (24 - d) = 2 * 2 ^ (24 - (d + 1)) := by
  rw [← pow_succ']; congr 1; omega

theorem left_child_node (d a : Nat) (hd : d ≤ 23) (ha : a < 2 ^ d) :
    ceph_frag_left_child (node d a) = node (d + 1) (2 * a) := by
  unfold ceph_frag_left_child
  have hs : add32 d 1 = d + 1 := by unfold add32; omega
  have ha2 : 2 * a < 2 ^ (d + 1) := by rw [pow_succ]; omega
  rw [node_bits d a (by omega) ha, node_value d a (by omega) ha, hs,
    ← make_node (d + 1) (2 * a) (by omega) ha2, step_double d hd]
  congr 1; ring

theorem right_child_node (d a : Nat) (hd : d ≤ 23) (ha : a < 2 ^ d) :
    ceph_frag_right_child (node d a) = node (d + 1) (2 * a + 1) := by
  unfold ceph_frag_right_child
  have hs : add32 d 1 = d + 1 := by unfold add32; omega
  have hs' : add32 1 d = d + 1 := by unfold add32; omega
  have ha2 : 2 * a + 1 < 2 ^ (d + 1) := by rw [pow_succ]; omega
  rw [node_bits d a (by omega) ha, node_value d a (by omega) ha, hs, hs',
    shr_bit _ (by omega), ← make_node (d + 1) (2 * a + 1) (by omega) ha2, or_bit,
    step_double d hd]
  have e : a * (2 * 2 ^ (24 - (d + 1))) / 2 ^ (24 - (d + 1)) = a * 2 := by
    rw [← Nat.mul_assoc]; exact Nat.mul_div_cancel _ (by positivity)
  rw [e, Nat.mul_mod_left, Nat.zero_mul, Nat.sub_zero]
  congr 1; ring

theorem pow_pred (n : Nat) (h : 1 ≤ n) : 2 ^ n = 2 * 2 ^ (n - 1) := by
  obtain ⟨m, rfl⟩ : ∃ m, n = m + 1 := ⟨n - 1, by omega⟩
  rw [Nat.add_sub_cancel, pow_succ']

theorem parent_node (d a : Nat) (h1 : 1 ≤ d) (hd : d ≤ 24) (ha : a < 2 ^ d) :
    ceph_frag_parent (node d a) = node (d - 1) (a / 2) := by
  unfold ceph_frag_parent
  have hs : sub32 d 1 = d - 1 := by unfold sub32; omega
  have hb := node_bits d a hd ha
  have hk : (2 : Nat) ^ (25 - d) = 2 * 2 ^ (24 - d) := by
    rw [pow_pred (25 - d) (by omega), show 25 - d - 1 = 24 - d by omega]
  have hsh : shl32 (2 ^ 24 - 2 ^ (24 - d)) 1 = 2 ^ 25 - 2 ^ (25 - d) := by
    have h25 : (2 : Nat) ^ 25 = 2 * 2 ^ 24 := by norm_num
    have hle : 2 ^ (24 - d) ≤ 2 ^ 24 := Nat.pow_le_pow_right (by decide) (by omega)
    unfold shl32
    rw [if_pos (by decide), Nat.shiftLeft_eq, h25, hk]
    generalize 2 ^ (24 - d) = s at hle
    omega
  have ha2 : a / 2 < 2 ^ (d - 1) := by
    have := pow_pred d h1
    omega
  have hlt := node_lt d a hd ha
  rw [hb, hs, mask_eq _ (by rw [hb]; exact hd), hb, hsh, node_value d a hd ha,
    and_block _ 25 _ (by omega), Nat.mod_eq_of_lt (by omega),
    ← make_node (d - 1) (a / 2) (by omega) ha2,
    show 24 - (d - 1) = 25 - d by omega, hk, Nat.mul_div_mul_right _ _ (by positivity)]

theorem contains_value_node (d a v : Nat) (hd : d ≤ 24) (ha : a < 2 ^ d) :
    ceph_frag_contains_value (node d a) v = decide (v % 2 ^ 24 / 2 ^ (24 - d) = a) := by
  unfold ceph_frag_contains_value
  have hb := node_bits d a hd ha
  rw [mask_eq _ (by rw [hb]; exact hd), hb, node_value d a hd ha,
    and_block _ 24 _ (by omega)]
  have hpos : 0 < 2 ^ (24 - d) := by positivity
  rw [Bool.eq_iff_iff, beq_iff_eq, decide_eq_true_eq]
  exact ⟨fun e => Nat.eq_of_mul_eq_mul_right hpos e, fun e => by rw [e]⟩

theorem is_right_child_node (d a : Nat) (hd : d ≤ 24) (ha : a < 2 ^ d) :
    ceph_frag_is_right_child (node d a) = decide (d = 24 ∧ a % 2 = 1) := by
  unfold ceph_frag_is_right_child
  have hpos : 0 < 2 ^ (24 - d) := by positivity
  rw [node_bits d a hd ha, node_value d a hd ha, shr_bit d hd, and_bit,
    Nat.mul_div_cancel _ hpos]
  by_cases h24 : d = 24
  · subst h24
    by_cases h : a % 2 = 1 <;> simp [h]
  · have h2 : 2 ≤ 2 ^ (24 - d) := by
      rw [pow_pred (24 - d) (by omega)]
      have : 0 < 2 ^ (24 - d - 1) := by positivity
      omega
    have hne : ¬ a % 2 * 2 ^ (24 - d) = 1 := by
      intro e
      rcases Nat.mod_two_eq_zero_or_one a with h | h <;> rw [h] at e <;> omega
    simp [h24, hne]

theorem is_left_child_node (d a : Nat) (hd : d ≤ 24) (ha : a < 2 ^ d) :
    ceph_frag_is_left_child (node d a) = decide (0 < d ∧ a % 2 = 0) := by
  unfold ceph_frag_is_left_child
  have hpos : 0 < 2 ^ (24 - d) := by positivity
  rw [node_bits d a hd ha, node_value d a hd ha, shr_bit d hd, and_bit,
    Nat.mul_div_cancel _ hpos]
  by_cases h0 : 0 < d
  · by_cases h : a % 2 = 0
    · simp [h0, h]
    · have : ¬ 2 ^ (24 - d) = 0 := by omega
      simp [h0, h, this]
  · simp [h0]

theorem next_node (d a : Nat) (hd : d ≤ 24) (ha : a < 2 ^ d) :
    ceph_frag_next (node d a) = node d ((a + 1) % 2 ^ d) := by
  unfold ceph_frag_next
  have hlt := node_lt d a hd ha
  have hle : 2 ^ (24 - d) ≤ 2 ^ 24 := Nat.pow_le_pow_right (by decide) (by omega)
  have hadd : add32 (a * 2 ^ (24 - d)) (2 ^ (24 - d)) = (a + 1) * 2 ^ (24 - d) := by
    unfold add32
    rw [Nat.add_mul, Nat.one_mul]
    generalize a * 2 ^ (24 - d) = x at hlt
    generalize 2 ^ (24 - d) = s at hle
    omega
  rw [node_bits d a hd ha, node_value d a hd ha, shr_bit d hd, hadd, make_eq_node d _ hd]
  congr 1
  conv_lhs => rw [pow_split d hd, Nat.mul_mod_mul_right]
  exact Nat.mul_div_cancel _ (by positivity)

theorem is_rightmost_node (d a : Nat) (hd : d ≤ 24) (ha : a < 2 ^ d) :
    ceph_frag_is_rightmost (node d a) = decide (a + 1 = 2 ^ d) := by
  unfold ceph_frag_is_rightmost
  have hb := node_bits d a hd ha
  have hpos : 0 < 2 ^ (24 - d) := by positivity
  rw [mask_eq _ (by rw [hb]; exact hd), hb, node_value d a hd ha, Bool.eq_iff_iff, beq_iff_eq,
    decide_eq_true_eq]
  have hle : 2 ^ (24 - d) ≤ 2 ^ 24 := Nat.pow_le_pow_right (by decide) (by omega)
  constructor
  · intro e
    have e2 : (a + 1) * 2 ^ (24 - d) = 2 ^ d * 2 ^ (24 - d) := by
      rw [← pow_split d hd, Nat.add_mul, Nat.one_mul]; omega
    exact Nat.eq_of_mul_eq_mul_right hpos e2
  · intro e
    have e2 : (a + 1) * 2 ^ (24 - d) = 2 ^ 24 := by rw [e]; exact (pow_split d hd).symm
    rw [Nat.add_mul, Nat.one_mul] at e2
    omega

theorem next_iter_node (d k : Nat) (hd : d ≤ 24) (hk : k < 2 ^ d) :
    next_iter k (ceph_frag_make d 0) = node d k := by
  induction k with
  | zero =>
    show ceph_frag_make d 0 = node d 0
    rw [make_eq_node d 0 hd]; simp
  | succ k ih =>
    show ceph_frag_next (next_iter k (ceph_frag_make d 0)) = node d (k + 1)
    rw [ih (by omega), next_node d k hd (by omega), Nat.mod_eq_of_lt hk]

theorem contains_frag_node (d a d' a' : Nat) (hd : d ≤ 24) (ha : a < 2 ^ d)
    (hd' : d' ≤ 24) (ha' : a' < 2 ^ d') :
    ceph_frag_contains_frag (node d a) (node d' a') =
      decide (d ≤ d' ∧ a' / 2 ^ (d' - d) = a) := by
  unfold ceph_frag_contains_frag
  have hb := node_bits d a hd ha
  rw [mask_eq _ (by rw [hb]; exact hd), hb, node_bits d' a' hd' ha', node_value d a hd ha,
    node_value d' a' hd' ha', and_block _ 24 _ (by omega),
    Nat.mod_eq_of_lt (node_lt d' a' hd' ha')]
  have hpos : 0 < 2 ^ (24 - d) := by positivity
  by_cases hle : d ≤ d'
  · have hs : 2 ^ (24 - d) = 2 ^ (d' - d) * 2 ^ (24 - d') := by
      rw [← pow_add]; congr 1; omega
    have hq : a' * 2 ^ (24 - d') / 2 ^ (24 - d) = a' / 2 ^ (d' - d) := by
      rw [hs]; exact Nat.mul_div_mul_right _ _ (by positivity)
    rw [hq, Bool.eq_iff_iff, Bool.and_eq_true, beq_iff_eq, decide_eq_true_eq,
      decide_eq_true_eq]
    constructor
    · rintro ⟨_, e⟩
      exact ⟨hle, Nat.eq_of_mul_eq_mul_right hpos e⟩
    · rintro ⟨_, e⟩
      exact ⟨hle, by rw [e]⟩
  · have h1 : decide (d' ≥ d) = false := decide_eq_false hle
    have h2 : decide (d ≤ d' ∧ a' / 2 ^ (d' - d) = a) = false :=
      decide_eq_false (fun h => hle h.1)
    rw [h1, h2, Bool.false_and]

theorem sibling_node (d a : Nat) (h1 : 1 ≤ d) (hd : d ≤ 24) (ha : a < 2 ^ d) :
    ceph_frag_sibling (node d a) = node d (a + 1 - 2 * (a % 2)) := by
  unfold ceph_frag_sibling
  have hpos : 0 < 2 ^ (24 - d) := by positivity
  have hp := pow_pred d h1
  rw [node_bits d a hd ha, node_value d a hd ha, shr_bit d hd, xor_bit,
    Nat.mul_div_cancel _ hpos]
  rcases Nat.mod_two_eq_zero_or_one a with h | h
  · have ha' : a + 1 < 2 ^ d := by omega
    rw [h, ← make_node d (a + 1 - 2 * 0) hd (by omega)]
    congr 1
    simp only [Nat.zero_mul, Nat.mul_zero, Nat.sub_zero, Nat.add_mul, Nat.one_mul]
  · obtain ⟨b, rfl⟩ : ∃ b, a = b + 1 := ⟨a - 1, by omega⟩
    rw [h, ← make_node d (b + 1 + 1 - 2 * 1) hd (by omega)]
    congr 1
    rw [show b + 1 + 1 - 2 * 1 = b by omega, Nat.add_mul]
    omega

theorem u32_of_int_natCast (n : Nat) (h : n < 2 ^ 32) : u32_of_int (n : Int) = n := by
  unfold u32_of_int; omega

theorem int_of_u32_small (n : Nat) (h : n < 2 ^ 31) : int_of_u32 n = (n : Int) := by
  unfold int_of_u32
  have e : n % 2 ^ 32 = n := Nat.mod_eq_of_lt (by omega)
  rw [e, if_pos h]

theorem make_child_node (d a b i : Nat) (hd : d + b ≤ 24) (ha : a < 2 ^ d) (hi : i < 2 ^ b) :
    ceph_frag_make_child (node d a) (b : Int) (i : Int) = node (d + b) (a * 2 ^ b + i) := by
  have hb24 : (2 : Nat) ^ b ≤ 2 ^ 24 := Nat.pow_le_pow_right (by decide) (by omega)
  have hs : 2 ^ (24 - d) = 2 ^ b * 2 ^ (24 - (d + b)) := by
    rw [← pow_add]; congr 1; omega
  have hle : 2 ^ (24 - d) ≤ 2 ^ 24 := Nat.pow_le_pow_right (by decide) (by omega)
  have hlt : i * 2 ^ (24 - (d + b)) < 2 ^ (24 - d) := by
    rw [hs]; exact Nat.mul_lt_mul_of_pos_right hi (by positivity)
  have e1 : u32_of_int (b : Int) = b := u32_of_int_natCast b (by omega)
  have e2 : add32 d b = d + b := by unfold add32; omega
  have e3 : int_of_u32 (d + b) = ((d + b : Nat) : Int) := int_of_u32_small _ (by omega)
  have e4 : u32_of_int ((d + b : Nat) : Int) = d + b := u32_of_int_natCast _ (by omega)
  have e5 : (24 : Int) - ((d + b : Nat) : Int) = ((24 - (d + b) : Nat) : Int) := by omega
  have e6 : u32_of_int ((24 - (d + b) : Nat) : Int) = 24 - (d + b) :=
    u32_of_int_natCast _ (by omega)
  have e7 : int_of_u32 (24 - (d + b)) = ((24 - (d + b) : Nat) : Int) :=
    int_of_u32_small _ (by omega)
  have e8 : shl_int (i : Int) ((24 - (d + b) : Nat) : Int)
      = ((i * 2 ^ (24 - (d + b)) : Nat) : Int) := by
    unfold shl_int
    rw [if_pos (by omega), u32_of_int_natCast i (by omega), Int.toNat_ofNat]
    unfold shl32
    rw [if_pos (by omega), Nat.shiftLeft_eq, Nat.mod_eq_of_lt (by omega)]
    exact int_of_u32_small _ (by omega)
  have e9 : u32_of_int ((i * 2 ^ (24 - (d + b)) : Nat) : Int) = i * 2 ^ (24 - (d + b)) :=
    u32_of_int_natCast _ (by omega)
  have hab : a * 2 ^ b + i < 2 ^ (d + b) := by
    rw [pow_add]
    calc a * 2 ^ b + i < a * 2 ^ b + 2 ^ b := by omega
      _ = (a + 1) * 2 ^ b := by ring
      _ ≤ 2 ^ d * 2 ^ b := Nat.mul_le_mul_right _ ha
  unfold ceph_frag_make_child
  simp only []
  rw [node_bits d a (by omega) ha, node_value d a (by omega) ha, e1, e2, e3, e4, e5, e6, e7,
    e8, e9, Nat.mul_comm a, ← Nat.mul_add_lt_is_or hlt, ← make_node (d + b) _ hd hab]
  congr 1
  rw [hs]; ring

theorem node_inj (d a b : Nat) (h : node d a = node d b) : a = b := by
  unfold node at h
  exact Nat.eq_of_mul_eq_mul_right (by positivity : 0 < 2 ^ (24 - d)) (by omega)

theorem is_leftmost_node (d a : Nat) (hd : d ≤ 24) (ha : a < 2 ^ d) :
    ceph_frag_is_leftmost (node d a) = decide (a = 0) := by
  unfold ceph_frag_is_leftmost
  have hpos : 0 < 2 ^ (24 - d) := by positivity
  rw [node_value d a hd ha, Bool.eq_iff_iff, beq_iff_eq, decide_eq_true_eq]
  constructor
  · intro e
    rcases Nat.mul_eq_zero.mp e with h | h
    · exact h
    · omega
  · intro e; rw [e, Nat.zero_mul]

theorem make_mask_node (d : Nat) (hd : d ≤ 24) :
    ceph_frag_make d (ceph_frag_mask (ceph_frag_make d 0)) = node d (2 ^ d - 1) := by
  have hpos : 0 < 2 ^ (24 - d) := by positivity
  have hd1 : 0 < 2 ^ d := by positivity
  have e : 2 ^ 24 - 2 ^ (24 - d) = (2 ^ d - 1) * 2 ^ (24 - d) := by
    rw [Nat.sub_mul, Nat.one_mul, ← pow_split d hd]
  rw [mask_eq _ (by rw [make_bits d 0 hd]; exact hd), make_bits d 0 hd, e,
    make_node d _ hd (by omega)]

theorem left_iter_node (k : Nat) (hk : k ≤ 24) : left_iter k (ceph_frag_make 0 0) = node k 0 := by
  induction k with
  | zero => decide
  | succ k ih =>
    show ceph_frag_left_child (left_iter k (ceph_frag_make 0 0)) = node (k + 1) 0
    rw [ih (by omega), left_child_node k 0 (by omega) (by positivity)]

theorem right_iter_node (k : Nat) (hk : k ≤ 24) :
    right_iter k (ceph_frag_make 0 0) = node k (2 ^ k - 1) := by
  induction k with
  | zero => decide
  | succ k ih =>
    show ceph_frag_right_child (right_iter k (ceph_frag_make 0 0)) = node (k + 1) (2 ^ (k + 1) - 1)
    have hpos : 0 < 2 ^ k := by positivity
    rw [ih (by omega), right_child_node k _ (by omega) (by omega)]
    congr 1
    rw [pow_succ]; omega

/-- The comparator on nodes: values first, then depths. -/
theorem compare_node (d x d' y : Nat) (hd : d ≤ 24) (hx : x < 2 ^ d)
    (hd' : d' ≤ 24) (hy : y < 2 ^ d') :
    ceph_frag_compare (node d x) (node d' y) =
      if x * 2 ^ (24 - d) < y * 2 ^ (24 - d') then Ordering.lt
      else if y * 2 ^ (24 - d') < x * 2 ^ (24 - d) then Ordering.gt
      else if d < d' then Ordering.lt
      else if d' < d then Ordering.gt
      else Ordering.eq := by
  unfold ceph_frag_compare
  simp only []
  rw [node_bits d x hd hx, node_bits d' y hd' hy, node_value d x hd hx,
    node_value d' y hd' hy, Nat.shiftRight_eq_div_pow, Nat.shiftRight_eq_div_pow]
  rcases Nat.le_total d d' with h | h
  · have hs : 2 ^ (24 - d) = 2 ^ (d' - d) * 2 ^ (24 - d') := by
      rw [← pow_add]; congr 1; omega
    have hpos : 0 < 2 ^ (24 - d') := by positivity
    have htpos : 0 < 2 ^ (d' - d) := by positivity
    have hdd : d = d' → 2 ^ (d' - d) = 1 := by
      intro e; rw [e, Nat.sub_self, pow_zero]
    have c1 : x < y / 2 ^ (d' - d) ↔ x * 2 ^ (d' - d) + 2 ^ (d' - d) ≤ y := by
      rw [Nat.lt_iff_add_one_le, Nat.le_div_iff_mul_le htpos, Nat.add_mul, Nat.one_mul]
    have c2 : y / 2 ^ (d' - d) < x ↔ y < x * 2 ^ (d' - d) := Nat.div_lt_iff_lt_mul htpos
    have r1 : x * (2 ^ (d' - d) * 2 ^ (24 - d')) < y * 2 ^ (24 - d') ↔
        x * 2 ^ (d' - d) < y := by
      rw [← Nat.mul_assoc]; exact Nat.mul_lt_mul_right hpos
    have r2 : y * 2 ^ (24 - d') < x * (2 ^ (d' - d) * 2 ^ (24 - d')) ↔
        y < x * 2 ^ (d' - d) := by
      rw [← Nat.mul_assoc]; exact Nat.mul_lt_mul_right hpos
    rw [Nat.min_eq_left h, Nat.mul_div_cancel _ (by positivity)]
    conv_lhs => rw [hs, Nat.mul_div_mul_right _ _ hpos]
    rw [hs]
    simp only [c1, c2, r1, r2]
    generalize x * 2 ^ (d' - d) = P
    generalize 2 ^ (d' - d) = T at htpos hdd
    split_ifs <;> first | rfl | (exfalso; omega)
  · have hs : 2 ^ (24 - d') = 2 ^ (d - d') * 2 ^ (24 - d) := by
      rw [← pow_add]; congr 1; omega
    have hpos : 0 < 2 ^ (24 - d) := by positivity
    have htpos : 0 < 2 ^ (d - d') := by positivity
    have hdd : d = d' → 2 ^ (d - d') = 1 := by
      intro e; rw [e, Nat.sub_self, pow_zero]
    have c1 : y < x / 2 ^ (d - d') ↔ y * 2 ^ (d - d') + 2 ^ (d - d') ≤ x := by
      rw [Nat.lt_iff_add_one_le, Nat.le_div_iff_mul_le htpos, Nat.add_mul, Nat.one_mul]
    have c2 : x / 2 ^ (d - d') < y ↔ x < y * 2 ^ (d - d') := Nat.div_lt_iff_lt_mul htpos
    have r1 : y * (2 ^ (d - d') * 2 ^ (24 - d)) < x * 2 ^ (24 - d) ↔
        y * 2 ^ (d - d') < x := by
      rw [← Nat.mul_assoc]; exact Nat.mul_lt_mul_right hpos
    have r2 : x * 2 ^ (24 - d) < y * (2 ^ (d - d') * 2 ^ (24 - d)) ↔
        x < y * 2 ^ (d - d') := by
      rw [← Nat.mul_assoc]; exact Nat.mul_lt_mul_right hpos
    rw [Nat.min_eq_right h, Nat.mul_div_cancel _ (by positivity)]
    conv_lhs => rw [hs, Nat.mul_div_mul_right _ _ hpos]
    rw [hs]
    simp only [c1, c2, r1, r2]
    generalize y * 2 ^ (d - d') = P
    generalize 2 ^ (d - d') = T at htpos hdd
    split_ifs <;> first | rfl | (exfalso; omega)

theorem child_index_lt (d a b i : Nat) (ha : a < 2 ^ d) (hi : i < 2 ^ b) :
    a * 2 ^ b + i < 2 ^ (d + b) := by
  rw [pow_add]
  calc a * 2 ^ b + i < a * 2 ^ b + 2 ^ b := by omega
    _ = (a + 1) * 2 ^ b := by ring
    _ ≤ 2 ^ d * 2 ^ b := Nat.mul_le_mul_right _ ha

/-! ## Codec -/

/-- C1: for every depth `d ≤ 24` and every 32-bit `v`, the depth of
`ceph_frag_make d v` is `d` and its value is `v AND m_d`, where
`m_d = ceph_frag_mask (ceph_frag_make d 0)` is the 24-bit mask whose top `d` bits
(bit positions `24 - d` to `23`) are set; in particular `m_0 = 0` and
`m_24 = 0xffffff`. -/
theorem frag_make_bits_value (d v : Nat) (hd : d ≤ 24) (_hv : v < 2 ^ 32) :
    ceph_frag_bits (ceph_frag_make d v) = d ∧
    ceph_frag_value (ceph_frag_make d v) = v &&& ceph_frag_mask (ceph_frag_make d 0) ∧
    (∀ j, (ceph_frag_mask (ceph_frag_make d 0)).testBit j = decide (24 - d ≤ j ∧ j < 24)) ∧
    ceph_frag_mask (ceph_frag_make 0 0) = 0 ∧
    ceph_frag_mask (ceph_frag_make 24 0) = 0xffffff := by
  have hm : ceph_frag_mask (ceph_frag_make d 0) = 2 ^ 24 - 2 ^ (24 - d) := by
    rw [mask_eq _ (by rw [make_bits d 0 hd]; exact hd), make_bits d 0 hd]
  refine ⟨make_bits d v hd, ?_, ?_, by decide, by decide⟩
  · rw [make_value d v hd, hm, and_block v 24 (24 - d) (by omega)]
  · intro j
    rw [hm]; exact testBit_block 24 (24 - d) j (by omega)

theorem frag_make_bits_value_witness :
    ceph_frag_bits (ceph_frag_make 3 0xabcdef12) = 3 ∧
    ceph_frag_value (ceph_frag_make 3 0xabcdef12) =
      0xabcdef12 &&& ceph_frag_mask (ceph_frag_make 3 0) ∧
    (∀ j, (ceph_frag_mask (ceph_frag_make 3 0)).testBit j = decide (24 - 3 ≤ j ∧ j < 24)) ∧
    ceph_frag_mask (ceph_frag_make 0 0) = 0 ∧
    ceph_frag_mask (ceph_frag_make 24 0) = 0xffffff :=
  frag_make_bits_value 3 0xabcdef12 (by decide) (by decide)

/-- C2: round trip.  Every well-formed frag `f` is rebuilt by
`ceph_frag_make (ceph_frag_bits f) (ceph_frag_value f)`; conversely every pair of a
depth `d ≤ 24` and a 24-bit value `v` whose low `24 - d` bits are zero is read back
from the well-formed word `ceph_frag_make d v`.  So packing is a bijection between
such pairs and well-formed frags. -/
theorem frag_round_trip (f d v : Nat) (hf : wellFormed f)
    (hd : d ≤ 24) (hv : v < 2 ^ 24) (hz : v % 2 ^ (24 - d) = 0) :
    ceph_frag_make (ceph_frag_bits f) (ceph_frag_value f) = f ∧
    wellFormed (ceph_frag_make d v) ∧
    ceph_frag_bits (ceph_frag_make d v) = d ∧
    ceph_frag_value (ceph_frag_make d v) = v := by
  refine ⟨?_, make_wellFormed d v hd, make_bits d v hd, ?_⟩
  · obtain ⟨_, hb, hz'⟩ := hf
    have h1 := make_eq (ceph_frag_bits f) (ceph_frag_value f) hb
    have h2 : ceph_frag_value f % 2 ^ 24 = ceph_frag_value f := by
      rw [value_eq]; exact Nat.mod_mod _ _
    rw [h2, Nat.div_mul_cancel (Nat.dvd_of_mod_eq_zero hz')] at h1
    rw [h1]; exact (frag_decomp f).symm
  · rw [make_value d v hd, Nat.mod_eq_of_lt hv, Nat.div_mul_cancel (Nat.dvd_of_mod_eq_zero hz)]

theorem frag_round_trip_witness :
    ceph_frag_make (ceph_frag_bits 0x02400000) (ceph_frag_value 0x02400000) = 0x02400000 ∧
    wellFormed (ceph_frag_make 3 0xa00000) ∧
    ceph_frag_bits (ceph_frag_make 3 0xa00000) = 3 ∧
    ceph_frag_value (ceph_frag_make 3 0xa00000) = 0xa00000 :=
  frag_round_trip 0x02400000 3 0xa00000 (by decide) (by decide) (by decide) (by decide)

/-! ## Mask and containment -/

/-- C5: frags of one depth partition the 24-bit space.  For `d ≤ 24` and `v < 2^24`
the frag `ceph_frag_make d v` contains `v`, and every well-formed frag of depth `d`
that contains `v` is that frag. -/
theorem frag_uniform_depth_partition (d v f : Nat) (hd : d ≤ 24) (_hv : v < 2 ^ 24) :
    ceph_frag_contains_value (ceph_frag_make d v) v = true ∧
    (wellFormed f → ceph_frag_bits f = d → ceph_frag_contains_value f v = true →
      f = ceph_frag_make d v) := by
  have hlt : v % 2 ^ 24 / 2 ^ (24 - d) < 2 ^ d := by
    rw [Nat.div_lt_iff_lt_mul (by positivity), ← pow_split d hd]
    exact Nat.mod_lt _ (by positivity)
  rw [make_eq_node d v hd]
  refine ⟨?_, ?_⟩
  · rw [contains_value_node d _ v hd hlt]; simp
  · intro hf hb hc
    obtain ⟨d', a, hd', ha, rfl⟩ := wf_cases f hf
    rw [node_bits d' a hd' ha] at hb
    subst hb
    rw [contains_value_node d' a v hd' ha, decide_eq_true_eq] at hc
    rw [hc]

theorem frag_uniform_depth_partition_witness :
    ceph_frag_contains_value (ceph_frag_make 3 0xabcdef) 0xabcdef = true ∧
    (wellFormed 0x03a00000 → ceph_frag_bits 0x03a00000 = 3 →
      ceph_frag_contains_value 0x03a00000 0xabcdef = true →
      0x03a00000 = ceph_frag_make 3 0xabcdef) :=
  frag_uniform_depth_partition 3 0xabcdef 0x03a00000 (by decide) (by decide)

/-- C7: `ceph_frag_contains_frag` is a partial order on well-formed frags: it is
reflexive, antisymmetric and transitive. -/
theorem frag_contains_frag_order (a b c : Nat)
    (ha : wellFormed a) (hb : wellFormed b) (hc : wellFormed c) :
    ceph_frag_contains_frag a a = true ∧
    (ceph_frag_contains_frag a b = true → ceph_frag_contains_frag b a = true → a = b) ∧
    (ceph_frag_contains_frag a b = true → ceph_frag_contains_frag b c = true →
      ceph_frag_contains_frag a c = true) := by
  obtain ⟨da, ia, hda, hia, rfl⟩ := wf_cases a ha
  obtain ⟨db, ib, hdb, hib, rfl⟩ := wf_cases b hb
  obtain ⟨dc, ic, hdc, hic, rfl⟩ := wf_cases c hc
  rw [contains_frag_node da ia da ia hda hia hda hia,
    contains_frag_node da ia db ib hda hia hdb hib,
    contains_frag_node db ib da ia hdb hib hda hia,
    contains_frag_node db ib dc ic hdb hib hdc hic,
    contains_frag_node da ia dc ic hda hia hdc hic]
  simp only [decide_eq_true_eq]
  refine ⟨⟨le_refl _, by simp⟩, ?_, ?_⟩
  · rintro ⟨h1, e1⟩ ⟨h2, _⟩
    have hdd : da = db := le_antisymm h1 h2
    subst hdd
    rw [Nat.sub_self, pow_zero, Nat.div_one] at e1
    rw [e1]
  · rintro ⟨h1, e1⟩ ⟨h2, e2⟩
    refine ⟨le_trans h1 h2, ?_⟩
    rw [← e1, ← e2, Nat.div_div_eq_div_mul, ← pow_add]
    congr 2; omega

theorem frag_contains_frag_order_witness :
    ceph_frag_contains_frag 0x01800000 0x01800000 = true ∧
    (ceph_frag_contains_frag 0x01800000 0x02c00000 = true →
      ceph_frag_contains_frag 0x02c00000 0x01800000 = true → 0x01800000 = 0x02c00000) ∧
    (ceph_frag_contains_frag 0x01800000 0x02c00000 = true →
      ceph_frag_contains_frag 0x02c00000 0x03e00000 = true →
      ceph_frag_contains_frag 0x01800000 0x03e00000 = true) :=
  frag_contains_frag_order 0x01800000 0x02c00000 0x03e00000
    (by decide) (by decide) (by decide)

/-- C8: a well-formed frag `f` contains a well-formed frag `sub` exactly when `sub`
is a descendant of `f` in the trie: `sub = ceph_frag_make_child f by i` for some
`by ≥ 0` with `ceph_frag_bits f + by ≤ 24` and some `0 ≤ i < 2^by`; `by = 0`, `i = 0`
gives `f` itself. -/
theorem frag_contains_iff_descendant (f sub : Nat) (hf : wellFormed f) (hs : wellFormed sub) :
    (ceph_frag_contains_frag f sub = true ↔
      ∃ by_ i : Int, 0 ≤ by_ ∧ (ceph_frag_bits f : Int) + by_ ≤ 24 ∧
        0 ≤ i ∧ i < 2 ^ by_.toNat ∧ sub = ceph_frag_make_child f by_ i) ∧
    ceph_frag_make_child f 0 0 = f := by
  obtain ⟨d, a, hd, ha, rfl⟩ := wf_cases f hf
  obtain ⟨d', a', hd', ha', rfl⟩ := wf_cases sub hs
  rw [contains_frag_node d a d' a' hd ha hd' ha', decide_eq_true_eq, node_bits d a hd ha]
  refine ⟨⟨?_, ?_⟩, ?_⟩
  · rintro ⟨hle, e⟩
    have hi : a' % 2 ^ (d' - d) < 2 ^ (d' - d) := Nat.mod_lt _ (by positivity)
    refine ⟨((d' - d : Nat) : Int), ((a' % 2 ^ (d' - d) : Nat) : Int), by omega, by omega,
      by omega, ?_, ?_⟩
    · rw [Int.toNat_ofNat]; exact_mod_cast hi
    · rw [make_child_node d a (d' - d) _ (by omega) ha hi, ← e, Nat.div_add_mod',
        Nat.add_sub_cancel' hle]
  · rintro ⟨by_, i, hb0, hb24, hi0, hi, e⟩
    obtain ⟨b, rfl⟩ := Int.eq_ofNat_of_zero_le hb0
    obtain ⟨j, rfl⟩ := Int.eq_ofNat_of_zero_le hi0
    rw [Int.toNat_ofNat] at hi
    have hj : j < 2 ^ b := by exact_mod_cast hi
    have hdb : d + b ≤ 24 := by omega
    rw [make_child_node d a b j hdb ha hj] at e
    have hab : a * 2 ^ b + j < 2 ^ (d + b) := by
      rw [pow_add]
      calc a * 2 ^ b + j < a * 2 ^ b + 2 ^ b := by omega
        _ = (a + 1) * 2 ^ b := by ring
        _ ≤ 2 ^ d * 2 ^ b := Nat.mul_le_mul_right _ ha
    have hbits := congrArg ceph_frag_bits e
    rw [node_bits d' a' hd' ha', node_bits (d + b) _ hdb hab] at hbits
    subst hbits
    have hval := congrArg ceph_frag_value e
    rw [node_value (d + b) a' hd' ha', node_value (d + b) _ hdb hab] at hval
    have ha'e : a' = a * 2 ^ b + j := Nat.eq_of_mul_eq_mul_right (by positivity) hval
    refine ⟨by omega, ?_⟩
    rw [ha'e, Nat.add_sub_cancel_left, Nat.mul_comm a, Nat.mul_add_div (by positivity),
      Nat.div_eq_of_lt hj, Nat.add_zero]
  · have := make_child_node d a 0 0 (by omega) ha (by decide)
    simpa using this

theorem frag_contains_iff_descendant_witness :
    (ceph_frag_contains_frag 0x01800000 0x03e00000 = true ↔
      ∃ by_ i : Int, 0 ≤ by_ ∧ (ceph_frag_bits 0x01800000 : Int) + by_ ≤ 24 ∧
        0 ≤ i ∧ i < 2 ^ by_.toNat ∧ 0x03e00000 = ceph_frag_make_child 0x01800000 by_ i) ∧
    ceph_frag_make_child 0x01800000 0 0 = 0x01800000 :=
  frag_contains_iff_descendant 0x01800000 0x03e00000 (by decide) (by decide)

/-! ## Trie navigation -/

/-- C4: for every well-formed frag `f` of depth at most 23, the parent of its left
child and the parent of its right child are both `f`. -/
theorem frag_parent_of_children (f : Nat) (hf : wellFormed f) (hd : ceph_frag_bits f ≤ 23) :
    ceph_frag_parent (ceph_frag_left_child f) = f ∧
    ceph_frag_parent (ceph_frag_right_child f) = f := by
  obtain ⟨d, a, hd24, ha, rfl⟩ := wf_cases f hf
  rw [node_bits d a hd24 ha] at hd
  have hl : 2 * a < 2 ^ (d + 1) := by rw [pow_succ]; omega
  have hr : 2 * a + 1 < 2 ^ (d + 1) := by rw [pow_succ]; omega
  rw [left_child_node d a hd ha, right_child_node d a hd ha,
    parent_node (d + 1) (2 * a) (by omega) (by omega) hl,
    parent_node (d + 1) (2 * a + 1) (by omega) (by omega) hr]
  refine ⟨?_, ?_⟩
  · congr 1; omega
  · congr 1; omega

theorem frag_parent_of_children_witness :
    ceph_frag_parent (ceph_frag_left_child 0x02400000) = 0x02400000 ∧
    ceph_frag_parent (ceph_frag_right_child 0x02400000) = 0x02400000 :=
  frag_parent_of_children 0x02400000 (by decide) (by decide)

/-- C6: for `d ≤ 24` and `k < 2^d`, applying `ceph_frag_next` `k` times to
`ceph_frag_make d 0` yields `ceph_frag_make d (k << (24 - d))`.  The values of these
`2^d` iterates are strictly increasing in `k` (so pairwise distinct), an iterate is
rightmost exactly when `k = 2^d - 1`, and every 24-bit value is contained in one of
them.  Concretely `ceph_frag_next (ceph_frag_make 2 0) = ceph_frag_make 2 0x400000`. -/
theorem frag_next_enumerates_depth (d k : Nat) (hd : d ≤ 24) (hk : k < 2 ^ d) :
    next_iter k (ceph_frag_make d 0) = ceph_frag_make d (k <<< (24 - d)) ∧
    (∀ k', k < k' → k' < 2 ^ d →
      ceph_frag_value (next_iter k (ceph_frag_make d 0)) <
        ceph_frag_value (next_iter k' (ceph_frag_make d 0))) ∧
    (∀ k', k' < 2 ^ d →
      ceph_frag_value (next_iter k (ceph_frag_make d 0)) =
        ceph_frag_value (next_iter k' (ceph_frag_make d 0)) → k = k') ∧
    (ceph_frag_is_rightmost (next_iter k (ceph_frag_make d 0)) = true ↔ k = 2 ^ d - 1) ∧
    (∀ v, v < 2 ^ 24 → ∃ k', k' < 2 ^ d ∧
      ceph_frag_contains_value (next_iter k' (ceph_frag_make d 0)) v = true) ∧
    ceph_frag_next (ceph_frag_make 2 0) = ceph_frag_make 2 0x400000 := by
  have hpos : 0 < 2 ^ (24 - d) := by positivity
  have hd1 : 0 < 2 ^ d := by positivity
  rw [next_iter_node d k hd hk, node_value d k hd hk]
  refine ⟨?_, ?_, ?_, ?_, ?_, by decide⟩
  · rw [Nat.shiftLeft_eq, make_node d k hd hk]
  · intro k' hlt hk'
    rw [next_iter_node d k' hd hk', node_value d k' hd hk']
    exact Nat.mul_lt_mul_of_pos_right hlt hpos
  · intro k' hk' e
    rw [next_iter_node d k' hd hk', node_value d k' hd hk'] at e
    exact Nat.eq_of_mul_eq_mul_right hpos e
  · rw [is_rightmost_node d k hd hk, decide_eq_true_eq]
    omega
  · intro v hv
    have hlt : v / 2 ^ (24 - d) < 2 ^ d := by
      rw [Nat.div_lt_iff_lt_mul hpos, ← pow_split d hd]; exact hv
    refine ⟨v / 2 ^ (24 - d), hlt, ?_⟩
    rw [next_iter_node d _ hd hlt, contains_value_node d _ v hd hlt, Nat.mod_eq_of_lt hv]
    simp

theorem frag_next_enumerates_depth_witness :
    next_iter 5 (ceph_frag_make 3 0) = ceph_frag_make 3 (5 <<< (24 - 3)) ∧
    (∀ k', 5 < k' → k' < 2 ^ 3 →
      ceph_frag_value (next_iter 5 (ceph_frag_make 3 0)) <
        ceph_frag_value (next_iter k' (ceph_frag_make 3 0))) ∧
    (∀ k', k' < 2 ^ 3 →
      ceph_frag_value (next_iter 5 (ceph_frag_make 3 0)) =
        ceph_frag_value (next_iter k' (ceph_frag_make 3 0)) → 5 = k') ∧
    (ceph_frag_is_rightmost (next_iter 5 (ceph_frag_make 3 0)) = true ↔ 5 = 2 ^ 3 - 1) ∧
    (∀ v, v < 2 ^ 24 → ∃ k', k' < 2 ^ 3 ∧
      ceph_frag_contains_value (next_iter k' (ceph_frag_make 3 0)) v = true) ∧
    ceph_frag_next (ceph_frag_make 2 0) = ceph_frag_make 2 0x400000 :=
  frag_next_enumerates_depth 3 5 (by decide) (by decide)

/-- C9: for every well-formed frag `f` of depth at least 1, `ceph_frag_parent f`
contains `f`, is well-formed, has depth `ceph_frag_bits f - 1`, and its value is the
value of `f` with the bit `0x1000000 >> ceph_frag_bits f` cleared. -/
theorem frag_parent_contains (f : Nat) (hf : wellFormed f) (h1 : 1 ≤ ceph_frag_bits f) :
    ceph_frag_contains_frag (ceph_frag_parent f) f = true ∧
    wellFormed (ceph_frag_parent f) ∧
    ceph_frag_bits (ceph_frag_parent f) = ceph_frag_bits f - 1 ∧
    (∀ j, (ceph_frag_value (ceph_frag_parent f)).testBit j =
      ((ceph_frag_value f).testBit j && !(0x1000000 >>> ceph_frag_bits f).testBit j)) ∧
    ceph_frag_value (ceph_frag_parent f) =
      ceph_frag_value f - (ceph_frag_value f &&& (0x1000000 >>> ceph_frag_bits f)) := by
  obtain ⟨d, a, hd, ha, rfl⟩ := wf_cases f hf
  rw [node_bits d a hd ha] at h1 ⊢
  have ha2 : a / 2 < 2 ^ (d - 1) := by
    have := pow_pred d h1
    omega
  have hk : 24 - (d - 1) = 24 - d + 1 := by omega
  have hpos : 0 < 2 ^ (24 - d) := by positivity
  rw [parent_node d a h1 hd ha, node_bits (d - 1) _ (by omega) ha2,
    node_value (d - 1) _ (by omega) ha2, node_value d a hd ha, shr_bit d hd, hk]
  refine ⟨?_, node_wellFormed (d - 1) _ (by omega) ha2, rfl, ?_, ?_⟩
  · rw [contains_frag_node (d - 1) _ d a (by omega) ha2 hd ha, decide_eq_true_eq]
    refine ⟨by omega, ?_⟩
    rw [show d - (d - 1) = 1 by omega, pow_one]
  · intro j
    rw [Nat.mul_comm (a / 2), Nat.mul_comm a, Nat.testBit_mul_pow_two,
      Nat.testBit_mul_pow_two, Nat.testBit_two_pow]
    by_cases hj : j < 24 - d
    · have h1' : ¬ j ≥ 24 - d + 1 := by omega
      have h2' : ¬ j ≥ 24 - d := by omega
      simp [h1', h2']
    · by_cases hje : 24 - d = j
      · have h1' : ¬ j ≥ 24 - d + 1 := by omega
        simp [h1', hje]
      · have h1' : j ≥ 24 - d + 1 := by omega
        have h2' : j ≥ 24 - d := by omega
        have e : j - (24 - d) = (j - (24 - d + 1)) + 1 := by omega
        rw [e, Nat.testBit_succ]
        simp [h1', h2', hje]
  · rw [and_bit, Nat.mul_div_cancel _ hpos, pow_succ]
    have := Nat.div_add_mod a 2
    have e : a * 2 ^ (24 - d) = a / 2 * (2 ^ (24 - d) * 2) + a % 2 * 2 ^ (24 - d) := by
      conv_lhs => rw [← this]
      ring
    omega

theorem frag_parent_contains_witness :
    ceph_frag_contains_frag (ceph_frag_parent 0x03e00000) 0x03e00000 = true ∧
    wellFormed (ceph_frag_parent 0x03e00000) ∧
    ceph_frag_bits (ceph_frag_parent 0x03e00000) = ceph_frag_bits 0x03e00000 - 1 ∧
    (∀ j, (ceph_frag_value (ceph_frag_parent 0x03e00000)).testBit j =
      ((ceph_frag_value 0x03e00000).testBit j &&
        !(0x1000000 >>> ceph_frag_bits 0x03e00000).testBit j)) ∧
    ceph_frag_value (ceph_frag_parent 0x03e00000) =
      ceph_frag_value 0x03e00000 -
        (ceph_frag_value 0x03e00000 &&& (0x1000000 >>> ceph_frag_bits 0x03e00000)) :=
  frag_parent_contains 0x03e00000 (by decide) (by decide)

/-- C10: for every well-formed frag `f` of depth at most 23, the sibling of its left
child is its right child and the sibling of its right child is its left child. -/
theorem frag_children_are_siblings (f : Nat) (hf : wellFormed f)
    (hd : ceph_frag_bits f ≤ 23) :
    ceph_frag_sibling (ceph_frag_left_child f) = ceph_frag_right_child f ∧
    ceph_frag_sibling (ceph_frag_right_child f) = ceph_frag_left_child f := by
  obtain ⟨d, a, hd24, ha, rfl⟩ := wf_cases f hf
  rw [node_bits d a hd24 ha] at hd
  have hl : 2 * a < 2 ^ (d + 1) := by rw [pow_succ]; omega
  have hr : 2 * a + 1 < 2 ^ (d + 1) := by rw [pow_succ]; omega
  rw [left_child_node d a hd ha, right_child_node d a hd ha,
    sibling_node (d + 1) (2 * a) (by omega) (by omega) hl,
    sibling_node (d + 1) (2 * a + 1) (by omega) (by omega) hr]
  refine ⟨?_, ?_⟩
  · congr 1; omega
  · congr 1; omega

theorem frag_children_are_siblings_witness :
    ceph_frag_sibling (ceph_frag_left_child 0x02400000) = ceph_frag_right_child 0x02400000 ∧
    ceph_frag_sibling (ceph_frag_right_child 0x02400000) = ceph_frag_left_child 0x02400000 :=
  frag_children_are_siblings 0x02400000 (by decide) (by decide)

/-- C3 (the code misses the claim): `ceph_frag_is_right_child` compares the
extracted bit with the literal `1`, so it answers false for the right child of the
root, `0x01800000`, whose distinguishing bit `0x800000` is set; that frag is then
neither a left nor a right child.  More generally it answers false on every
well-formed frag of depth 1 to 23, and at depth 24 it tests bit 0. -/
theorem frag_is_right_child_literal_one :
    wellFormed 0x01800000 ∧
    ceph_frag_right_child 0 = 0x01800000 ∧
    ceph_frag_value 0x01800000 &&& (0x1000000 >>> ceph_frag_bits 0x01800000) = 0x800000 ∧
    ceph_frag_is_right_child 0x01800000 = false ∧
    ceph_frag_is_left_child 0x01800000 = false ∧
    (∀ f, wellFormed f → 1 ≤ ceph_frag_bits f → ceph_frag_bits f ≤ 23 →
      ceph_frag_is_right_child f = false) := by
  refine ⟨by decide, by decide, by decide, by decide, by decide, ?_⟩
  intro f hf h1 h23
  obtain ⟨d, a, hd, ha, rfl⟩ := wf_cases f hf
  rw [node_bits d a hd ha] at h1 h23
  rw [is_right_child_node d a hd ha]
  have : ¬ d = 24 := by omega
  simp [this]

/-! ## Generalised children -/

/-- C11: for every well-formed frag `f` of depth at most 23,
`ceph_frag_make_child f 1 0` is the left child and `ceph_frag_make_child f 1 1` the
right child.  For the root `ceph_frag_make 0 0` the two results are
`ceph_frag_make 1 0` (depth 1, value 0) and `ceph_frag_make 1 0x800000`. -/
theorem frag_make_child_one_level (f : Nat) (hf : wellFormed f)
    (hd : ceph_frag_bits f ≤ 23) :
    ceph_frag_make_child f 1 0 = ceph_frag_left_child f ∧
    ceph_frag_make_child f 1 1 = ceph_frag_right_child f ∧
    ceph_frag_left_child (ceph_frag_make 0 0) = ceph_frag_make 1 0 ∧
    ceph_frag_bits (ceph_frag_left_child (ceph_frag_make 0 0)) = 1 ∧
    ceph_frag_value (ceph_frag_left_child (ceph_frag_make 0 0)) = 0 ∧
    ceph_frag_right_child (ceph_frag_make 0 0) = ceph_frag_make 1 0x800000 := by
  obtain ⟨d, a, hd24, ha, rfl⟩ := wf_cases f hf
  rw [node_bits d a hd24 ha] at hd
  have h0 := make_child_node d a 1 0 (by omega) ha (by decide)
  have h1 := make_child_node d a 1 1 (by omega) ha (by decide)
  rw [Nat.cast_one, Nat.cast_zero] at h0
  rw [Nat.cast_one] at h1
  refine ⟨?_, ?_, by decide, by decide, by decide, by decide⟩
  · rw [h0, left_child_node d a hd ha]; congr 1; omega
  · rw [h1, right_child_node d a hd ha]; congr 1; omega

theorem frag_make_child_one_level_witness :
    ceph_frag_make_child (ceph_frag_make 0 0) 1 0 = ceph_frag_left_child (ceph_frag_make 0 0) ∧
    ceph_frag_make_child (ceph_frag_make 0 0) 1 1 =
      ceph_frag_right_child (ceph_frag_make 0 0) ∧
    ceph_frag_left_child (ceph_frag_make 0 0) = ceph_frag_make 1 0 ∧
    ceph_frag_bits (ceph_frag_left_child (ceph_frag_make 0 0)) = 1 ∧
    ceph_frag_value (ceph_frag_left_child (ceph_frag_make 0 0)) = 0 ∧
    ceph_frag_right_child (ceph_frag_make 0 0) = ceph_frag_make 1 0x800000 :=
  frag_make_child_one_level (ceph_frag_make 0 0) (by decide) (by decide)

/-- C12 as stated fails: with `f = 0x1000000` and `by = 1`, `ceph_frag_make_child`
returns neither `0x1000000` for `i = 0` nor `0x1100000` for `i = 1`. -/
theorem frag_make_child_doc_example_fails :
    ceph_frag_make_child 0x1000000 1 0 ≠ 0x1000000 ∧
    ceph_frag_make_child 0x1000000 1 1 ≠ 0x1100000 := by
  constructor <;> decide

/-- C12 amended: with `f = 0x1000000` (depth 1, value 0) and `by = 1`,
`ceph_frag_make_child f 1 0` returns `0x2000000` and `ceph_frag_make_child f 1 1`
returns `0x2400000`: the depth-2 frags of value `0` and `0x400000`, which are the
left and the right child of `f`. -/
theorem frag_make_child_doc_example :
    ceph_frag_make_child 0x1000000 1 0 = 0x2000000 ∧
    ceph_frag_make_child 0x1000000 1 1 = 0x2400000 ∧
    ceph_frag_left_child 0x1000000 = 0x2000000 ∧
    ceph_frag_right_child 0x1000000 = 0x2400000 := by
  refine ⟨by decide, by decide, by decide, by decide⟩

/-- C13: an encoded frag can be fed as the value of `ceph_frag_contains_value`.  For
`f` of depth at most 24 and a 32-bit word `w`, the answer for `w` is the answer for
`ceph_frag_value w` (the top 8 bits of `w` are ignored); hence for `f`, `sub` of
depth at most 24, `ceph_frag_contains_frag f sub` holds exactly when `sub` is at
least as deep as `f` and `ceph_frag_contains_value f sub` holds on the raw word. -/
theorem frag_contains_value_of_encoded (f w sub : Nat) (_hf : ceph_frag_bits f ≤ 24)
    (_hw : w < 2 ^ 32) (_hs : ceph_frag_bits sub ≤ 24) :
    ceph_frag_contains_value f w = ceph_frag_contains_value f (ceph_frag_value w) ∧
    (ceph_frag_contains_frag f sub = true ↔
      ceph_frag_bits sub ≥ ceph_frag_bits f ∧ ceph_frag_contains_value f sub = true) := by
  have key : ∀ x, x &&& ceph_frag_mask f = ceph_frag_value x &&& ceph_frag_mask f := by
    intro x
    unfold ceph_frag_mask ceph_frag_value
    apply Nat.eq_of_testBit_eq
    intro j
    simp only [Nat.testBit_and]
    cases x.testBit j <;> cases (Nat.testBit 0xffffff j) <;> simp
  refine ⟨?_, ?_⟩
  · unfold ceph_frag_contains_value
    rw [key w]
  · unfold ceph_frag_contains_frag ceph_frag_contains_value
    rw [key sub, Bool.and_eq_true, decide_eq_true_eq]

theorem frag_contains_value_of_encoded_witness :
    ceph_frag_contains_value 0x01800000 0x03e00000 =
      ceph_frag_contains_value 0x01800000 (ceph_frag_value 0x03e00000) ∧
    (ceph_frag_contains_frag 0x01800000 0x03e00000 = true ↔
      ceph_frag_bits 0x03e00000 ≥ ceph_frag_bits 0x01800000 ∧
        ceph_frag_contains_value 0x01800000 0x03e00000 = true) :=
  frag_contains_value_of_encoded 0x01800000 0x03e00000 0x03e00000
    (by decide) (by decide) (by decide)

/-! ## Edges of the trie -/

/-- C14: for every `d ≤ 24`, `ceph_frag_make d 0` is leftmost and
`ceph_frag_make d m_d` is rightmost, where `m_d = ceph_frag_mask (ceph_frag_make d 0)`.
The first is reached from the root by `d` applications of `ceph_frag_left_child`,
the second by `d` applications of `ceph_frag_right_child`, and they are the only
well-formed frags of depth `d` that are leftmost, respectively rightmost. -/
theorem frag_leftmost_rightmost (d f : Nat) (hd : d ≤ 24) :
    ceph_frag_is_leftmost (ceph_frag_make d 0) = true ∧
    ceph_frag_is_rightmost
      (ceph_frag_make d (ceph_frag_mask (ceph_frag_make d 0))) = true ∧
    left_iter d (ceph_frag_make 0 0) = ceph_frag_make d 0 ∧
    right_iter d (ceph_frag_make 0 0) =
      ceph_frag_make d (ceph_frag_mask (ceph_frag_make d 0)) ∧
    (wellFormed f → ceph_frag_bits f = d →
      (ceph_frag_is_leftmost f = true ↔ f = ceph_frag_make d 0) ∧
      (ceph_frag_is_rightmost f = true ↔
        f = ceph_frag_make d (ceph_frag_mask (ceph_frag_make d 0)))) := by
  have hd1 : 0 < 2 ^ d := by positivity
  have h0 : ceph_frag_make d 0 = node d 0 := by
    rw [make_eq_node d 0 hd]; simp
  rw [make_mask_node d hd, h0, left_iter_node d hd, right_iter_node d hd,
    is_leftmost_node d 0 hd hd1, is_rightmost_node d _ hd (by omega)]
  refine ⟨by simp, by simp; omega, rfl, rfl, ?_⟩
  intro hf hb
  obtain ⟨d', a, hd', ha, rfl⟩ := wf_cases f hf
  rw [node_bits d' a hd' ha] at hb
  subst hb
  rw [is_leftmost_node d' a hd' ha, is_rightmost_node d' a hd' ha, decide_eq_true_eq,
    decide_eq_true_eq]
  refine ⟨⟨fun e => by rw [e], fun e => node_inj d' a 0 e⟩,
    ⟨fun e => by congr 1; omega, fun e => ?_⟩⟩
  have := node_inj d' a _ e
  omega

theorem frag_leftmost_rightmost_witness :
    ceph_frag_is_leftmost (ceph_frag_make 3 0) = true ∧
    ceph_frag_is_rightmost
      (ceph_frag_make 3 (ceph_frag_mask (ceph_frag_make 3 0))) = true ∧
    left_iter 3 (ceph_frag_make 0 0) = ceph_frag_make 3 0 ∧
    right_iter 3 (ceph_frag_make 0 0) =
      ceph_frag_make 3 (ceph_frag_mask (ceph_frag_make 3 0)) ∧
    (wellFormed 0x03e00000 → ceph_frag_bits 0x03e00000 = 3 →
      (ceph_frag_is_leftmost 0x03e00000 = true ↔ 0x03e00000 = ceph_frag_make 3 0) ∧
      (ceph_frag_is_rightmost 0x03e00000 = true ↔
        0x03e00000 = ceph_frag_make 3 (ceph_frag_mask (ceph_frag_make 3 0)))) :=
  frag_leftmost_rightmost 3 0x03e00000 (by decide)

/-- C15: for a well-formed frag `f` of depth at least 1, `ceph_frag_is_left_child f`
is true exactly when the bit `0x1000000 >> ceph_frag_bits f` (bit position
`24 - ceph_frag_bits f`) is clear in `ceph_frag_value f`; so the left child of a
well-formed `g` of depth at most 23 is a left child and its right child is not.  On
every frag `r` of depth 0 both `ceph_frag_is_left_child` and
`ceph_frag_is_right_child` are false. -/
theorem frag_is_left_child_bit (f g r : Nat) (hf : wellFormed f)
    (h1 : 1 ≤ ceph_frag_bits f) (hg : wellFormed g) (hg23 : ceph_frag_bits g ≤ 23)
    (hr : ceph_frag_bits r = 0) :
    (ceph_frag_is_left_child f = true ↔
      ceph_frag_value f &&& (0x1000000 >>> ceph_frag_bits f) = 0) ∧
    (ceph_frag_is_left_child f = true ↔
      (ceph_frag_value f).testBit (24 - ceph_frag_bits f) = false) ∧
    ceph_frag_is_left_child (ceph_frag_left_child g) = true ∧
    ceph_frag_is_left_child (ceph_frag_right_child g) = false ∧
    ceph_frag_is_left_child r = false ∧
    ceph_frag_is_right_child r = false := by
  refine ⟨?_, ?_, ?_, ?_, ?_, ?_⟩
  · unfold ceph_frag_is_left_child
    rw [Bool.and_eq_true, decide_eq_true_eq, beq_iff_eq]
    exact ⟨fun h => h.2, fun h => ⟨h1, h⟩⟩
  · obtain ⟨d, a, hd, ha, rfl⟩ := wf_cases f hf
    rw [node_bits d a hd ha] at h1 ⊢
    rw [is_left_child_node d a hd ha, node_value d a hd ha, Nat.mul_comm,
      Nat.testBit_mul_pow_two, decide_eq_true_eq, Nat.sub_self, Nat.testBit_zero]
    rcases Nat.mod_two_eq_zero_or_one a with h | h
    · simp [h]; omega
    · simp [h]
  · obtain ⟨d, a, hd, ha, rfl⟩ := wf_cases g hg
    rw [node_bits d a hd ha] at hg23
    rw [left_child_node d a hg23 ha,
      is_left_child_node (d + 1) (2 * a) (by omega) (by rw [pow_succ]; omega),
      decide_eq_true_eq]
    omega
  · obtain ⟨d, a, hd, ha, rfl⟩ := wf_cases g hg
    rw [node_bits d a hd ha] at hg23
    rw [right_child_node d a hg23 ha,
      is_left_child_node (d + 1) (2 * a + 1) (by omega) (by rw [pow_succ]; omega),
      decide_eq_false_iff_not]
    omega
  · unfold ceph_frag_is_left_child
    rw [hr]; rfl
  · unfold ceph_frag_is_right_child
    rw [hr]; rfl

theorem frag_is_left_child_bit_witness :
    (ceph_frag_is_left_child 0x03c00000 = true ↔
      ceph_frag_value 0x03c00000 &&& (0x1000000 >>> ceph_frag_bits 0x03c00000) = 0) ∧
    (ceph_frag_is_left_child 0x03c00000 = true ↔
      (ceph_frag_value 0x03c00000).testBit (24 - ceph_frag_bits 0x03c00000) = false) ∧
    ceph_frag_is_left_child (ceph_frag_left_child 0x02400000) = true ∧
    ceph_frag_is_left_child (ceph_frag_right_child 0x02400000) = false ∧
    ceph_frag_is_left_child 0 = false ∧
    ceph_frag_is_right_child 0 = false :=
  frag_is_left_child_bit 0x03c00000 0x02400000 0 (by decide) (by decide) (by decide)
    (by decide) (by decide)

/-! ## Parent of the root -/

/-- C16 as stated fails: for the root `ceph_frag_make 0 0 = 0`, `ceph_frag_parent`
returns a packed word, `0xff000000`, whose depth field `255` lies outside `0..24`. -/
theorem frag_parent_of_root_malformed :
    ceph_frag_make 0 0 = 0 ∧
    ceph_frag_parent (ceph_frag_make 0 0) = 0xff000000 ∧
    ceph_frag_bits (ceph_frag_parent (ceph_frag_make 0 0)) = 255 ∧
    ¬ ceph_frag_bits (ceph_frag_parent (ceph_frag_make 0 0)) ≤ 24 := by
  refine ⟨by decide, by decide, by decide, by decide⟩

/-- C16 amended: `ceph_frag_parent` makes no check of its argument.  On every frag
`f` of depth 0 the depth `ceph_frag_bits f - 1` wraps to `0xffffffff` and the result
is the packed word `0xff000000`, whose depth field is `255`; it is not well-formed. -/
theorem frag_parent_of_depth_zero (f : Nat) (_hf : f < 2 ^ 32) (h0 : ceph_frag_bits f = 0) :
    ceph_frag_parent f = 0xff000000 ∧
    ceph_frag_bits (ceph_frag_parent f) = 255 ∧
    ¬ wellFormed (ceph_frag_parent f) := by
  have e : ceph_frag_parent f = 0xff000000 := by
    unfold ceph_frag_parent ceph_frag_make
    rw [h0]
    have hs : sub32 0 1 = 0xffffffff := by decide
    have hm : shl32 0xffffff (sub32 24 0xffffffff) &&& 0xffffff = 0 := by decide
    have hb : shl32 0xffffffff 24 = 0xff000000 := by decide
    rw [hs, Nat.and_assoc, hm, Nat.and_zero, hb]
    rfl
  rw [e]
  refine ⟨rfl, by decide, by decide⟩

theorem frag_parent_of_depth_zero_witness :
    ceph_frag_parent 0 = 0xff000000 ∧
    ceph_frag_bits (ceph_frag_parent 0) = 255 ∧
    ¬ wellFormed (ceph_frag_parent 0) :=
  frag_parent_of_depth_zero 0 (by decide) (by decide)

/-! ## Ordering -/

/-- C17: on well-formed frags `ceph_frag_compare` is a total order: it is reflexive,
`eq` only on equal frags, `lt` one way exactly when `gt` the other way, transitive,
and any two frags are comparable.  It sorts logically: a smaller value comes first
and a frag comes before every frag it contains; each `ceph_frag_next` step away from
the right edge is strictly increasing.  It differs from the numeric order of the
packed words: `ceph_frag_make 1 0x800000` is the smaller word but the greater frag
when compared with `ceph_frag_make 2 0`. -/
theorem frag_compare_total_order (a b c : Nat)
    (ha : wellFormed a) (hb : wellFormed b) (hc : wellFormed c) :
    ceph_frag_compare a a = Ordering.eq ∧
    (ceph_frag_compare a b = Ordering.eq → a = b) ∧
    (ceph_frag_compare a b = Ordering.lt ↔ ceph_frag_compare b a = Ordering.gt) ∧
    (ceph_frag_compare a b = Ordering.lt → ceph_frag_compare b c = Ordering.lt →
      ceph_frag_compare a c = Ordering.lt) ∧
    (ceph_frag_compare a b = Ordering.lt ∨ a = b ∨ ceph_frag_compare b a = Ordering.lt) ∧
    (ceph_frag_value a < ceph_frag_value b → ceph_frag_compare a b = Ordering.lt) ∧
    (ceph_frag_contains_frag a b = true → a ≠ b → ceph_frag_compare a b = Ordering.lt) ∧
    (ceph_frag_is_rightmost a = false →
      ceph_frag_compare a (ceph_frag_next a) = Ordering.lt) ∧
    ceph_frag_make 1 0x800000 < ceph_frag_make 2 0 ∧
    ceph_frag_compare (ceph_frag_make 1 0x800000) (ceph_frag_make 2 0) = Ordering.gt := by
  obtain ⟨da, x, hda, hx, rfl⟩ := wf_cases a ha
  obtain ⟨db, y, hdb, hy, rfl⟩ := wf_cases b hb
  obtain ⟨dc, z, hdc, hz, rfl⟩ := wf_cases c hc
  have hnext : ceph_frag_is_rightmost (node da x) = false →
      ceph_frag_compare (node da x) (ceph_frag_next (node da x)) = Ordering.lt := by
    rw [is_rightmost_node da x hda hx, decide_eq_false_iff_not]
    intro hne
    have hx1 : x + 1 < 2 ^ da := by omega
    rw [next_node da x hda hx, Nat.mod_eq_of_lt hx1, compare_node da x da (x + 1) hda hx hda hx1]
    have hlt : x * 2 ^ (24 - da) < (x + 1) * 2 ^ (24 - da) :=
      Nat.mul_lt_mul_of_pos_right (by omega) (by positivity)
    rw [if_pos hlt]
  have hsub : ceph_frag_contains_frag (node da x) (node db y) = true →
      x * 2 ^ (24 - da) ≤ y * 2 ^ (24 - db) ∧ da ≤ db := by
    rw [contains_frag_node da x db y hda hx hdb hy, decide_eq_true_eq]
    rintro ⟨hle, e⟩
    refine ⟨?_, hle⟩
    have hs : 2 ^ (24 - da) = 2 ^ (db - da) * 2 ^ (24 - db) := by
      rw [← pow_add]; congr 1; omega
    rw [← e, hs, ← Nat.mul_assoc]
    exact Nat.mul_le_mul_right _ (Nat.div_mul_le_self _ _)
  have hne : node da x ≠ node db y →
      ¬ (x * 2 ^ (24 - da) = y * 2 ^ (24 - db) ∧ da = db) := by
    rintro h ⟨e1, e2⟩
    apply h
    unfold node
    rw [e1, e2]
  have heq : x * 2 ^ (24 - da) = y * 2 ^ (24 - db) → da = db → node da x = node db y := by
    intro e1 e2
    unfold node
    rw [e1, e2]
  rw [node_value da x hda hx, node_value db y hdb hy]
  rw [compare_node da x da x hda hx hda hx, compare_node da x db y hda hx hdb hy,
    compare_node db y da x hdb hy hda hx, compare_node db y dc z hdb hy hdc hz,
    compare_node da x dc z hda hx hdc hz] at *
  generalize x * 2 ^ (24 - da) = va at *
  generalize y * 2 ^ (24 - db) = vb at *
  generalize z * 2 ^ (24 - dc) = vc at *
  refine ⟨?_, ?_, ?_, ?_, ?_, ?_, ?_, hnext, by decide, by decide⟩
  · simp
  · intro h
    apply heq <;> (split_ifs at h; omega)
  · constructor <;> intro h <;> split_ifs at h ⊢ <;> first | rfl | omega
  · intro h1 h2
    split_ifs at h1 h2 ⊢ <;> first | rfl | omega
  · by_cases e1 : va = vb
    · by_cases e2 : da = db
      · exact Or.inr (Or.inl (heq e1 e2))
      · rcases Nat.lt_or_gt_of_ne e2 with h | h
        · left; split_ifs <;> first | rfl | omega
        · right; right; split_ifs <;> first | rfl | omega
    · rcases Nat.lt_or_gt_of_ne e1 with h | h
      · left; rw [if_pos h]
      · right; right; rw [if_pos h]
  · intro h
    rw [if_pos h]
  · intro h1 h2
    have h3 := hsub h1
    have h4 := hne h2
    split_ifs <;> first | rfl | omega

theorem frag_compare_total_order_witness :
    ceph_frag_compare 0x01800000 0x01800000 = Ordering.eq ∧
    (ceph_frag_compare 0x01800000 0x02c00000 = Ordering.eq → 0x01800000 = 0x02c00000) ∧
    (ceph_frag_compare 0x01800000 0x02c00000 = Ordering.lt ↔
      ceph_frag_compare 0x02c00000 0x01800000 = Ordering.gt) ∧
    (ceph_frag_compare 0x01800000 0x02c00000 = Ordering.lt →
      ceph_frag_compare 0x02c00000 0x03e00000 = Ordering.lt →
      ceph_frag_compare 0x01800000 0x03e00000 = Ordering.lt) ∧
    (ceph_frag_compare 0x01800000 0x02c00000 = Ordering.lt ∨ 0x01800000 = 0x02c00000 ∨
      ceph_frag_compare 0x02c00000 0x01800000 = Ordering.lt) ∧
    (ceph_frag_value 0x01800000 < ceph_frag_value 0x02c00000 →
      ceph_frag_compare 0x01800000 0x02c00000 = Ordering.lt) ∧
    (ceph_frag_contains_frag 0x01800000 0x02c00000 = true → 0x01800000 ≠ 0x02c00000 →
      ceph_frag_compare 0x01800000 0x02c00000 = Ordering.lt) ∧
    (ceph_frag_is_rightmost 0x01800000 = false →
      ceph_frag_compare 0x01800000 (ceph_frag_next 0x01800000) = Ordering.lt) ∧
    ceph_frag_make 1 0x800000 < ceph_frag_make 2 0 ∧
    ceph_frag_compare (ceph_frag_make 1 0x800000) (ceph_frag_make 2 0) = Ordering.gt :=
  frag_compare_total_order 0x01800000 0x02c00000 0x03e00000
    (by decide) (by decide) (by decide)

/-! ## Invariants -/

/-- C18: well-formedness is kept by every frag-producing function within its
precondition.  `ceph_frag_make d v` is well-formed for `d ≤ 24` and any `v`; for a
well-formed `f`, so are `ceph_frag_sibling f` and `ceph_frag_next f`,
`ceph_frag_parent f` when the depth is at least 1, both children when the depth is
at most 23, and `ceph_frag_make_child f by i` when `by ≥ 0`, depth plus `by` is at
most 24 and `0 ≤ i < 2^by`. -/
theorem frag_wellFormed_preserved (d v f : Nat) (by_ i : Int) (hd : d ≤ 24)
    (hf : wellFormed f) :
    wellFormed (ceph_frag_make d v) ∧
    (1 ≤ ceph_frag_bits f → wellFormed (ceph_frag_parent f)) ∧
    wellFormed (ceph_frag_sibling f) ∧
    wellFormed (ceph_frag_next f) ∧
    (ceph_frag_bits f ≤ 23 →
      wellFormed (ceph_frag_left_child f) ∧ wellFormed (ceph_frag_right_child f)) ∧
    (0 ≤ by_ → (ceph_frag_bits f : Int) + by_ ≤ 24 → 0 ≤ i → i < 2 ^ by_.toNat →
      wellFormed (ceph_frag_make_child f by_ i)) := by
  have hb : ceph_frag_bits f ≤ 24 := hf.2.1
  refine ⟨make_wellFormed d v hd, ?_, make_wellFormed _ _ hb, make_wellFormed _ _ hb, ?_, ?_⟩
  · intro h1
    exact make_wellFormed _ _ (by unfold sub32; omega)
  · intro h23
    exact ⟨make_wellFormed _ _ (by unfold add32; omega),
      make_wellFormed _ _ (by unfold add32; omega)⟩
  · intro hb0 hb24 hi0 hi
    obtain ⟨d', a, hd', ha, rfl⟩ := wf_cases f hf
    rw [node_bits d' a hd' ha] at hb24
    obtain ⟨b, rfl⟩ := Int.eq_ofNat_of_zero_le hb0
    obtain ⟨j, rfl⟩ := Int.eq_ofNat_of_zero_le hi0
    rw [Int.toNat_ofNat] at hi
    have hj : j < 2 ^ b := by exact_mod_cast hi
    rw [make_child_node d' a b j (by omega) ha hj]
    exact node_wellFormed _ _ (by omega) (child_index_lt d' a b j ha hj)

theorem frag_wellFormed_preserved_witness :
    wellFormed (ceph_frag_make 3 0xabcdef) ∧
    (1 ≤ ceph_frag_bits 0x02400000 → wellFormed (ceph_frag_parent 0x02400000)) ∧
    wellFormed (ceph_frag_sibling 0x02400000) ∧
    wellFormed (ceph_frag_next 0x02400000) ∧
    (ceph_frag_bits 0x02400000 ≤ 23 →
      wellFormed (ceph_frag_left_child 0x02400000) ∧
        wellFormed (ceph_frag_right_child 0x02400000)) ∧
    (0 ≤ (2 : Int) → (ceph_frag_bits 0x02400000 : Int) + 2 ≤ 24 → 0 ≤ (3 : Int) →
      (3 : Int) < 2 ^ (2 : Int).toNat →
      wellFormed (ceph_frag_make_child 0x02400000 2 3)) :=
  frag_wellFormed_preserved 3 0xabcdef 0x02400000 2 3 (by decide) (by decide)

/-- C19: `ceph_frag_next` wraps around at the right edge and keeps the depth field.
For a well-formed `f` the depth of `ceph_frag_next f` is that of `f`; when `f` is
rightmost (the root included) `ceph_frag_next f` is `ceph_frag_make (ceph_frag_bits f) 0`,
the leftmost frag of the same depth; otherwise its value is
`ceph_frag_value f + (0x1000000 >> ceph_frag_bits f)`. -/
theorem frag_next_wraps (f : Nat) (hf : wellFormed f) :
    ceph_frag_bits (ceph_frag_next f) = ceph_frag_bits f ∧
    (ceph_frag_is_rightmost f = true →
      ceph_frag_next f = ceph_frag_make (ceph_frag_bits f) 0) ∧
    (ceph_frag_is_rightmost f = false →
      ceph_frag_value (ceph_frag_next f) =
        ceph_frag_value f + (0x1000000 >>> ceph_frag_bits f)) ∧
    ceph_frag_is_rightmost (ceph_frag_make 0 0) = true ∧
    ceph_frag_next (ceph_frag_make 0 0) = ceph_frag_make 0 0 := by
  obtain ⟨d, a, hd, ha, rfl⟩ := wf_cases f hf
  have hd1 : 0 < 2 ^ d := by positivity
  have hm : (a + 1) % 2 ^ d < 2 ^ d := Nat.mod_lt _ hd1
  rw [next_node d a hd ha, node_bits d a hd ha, node_bits d _ hd hm, node_value d a hd ha,
    node_value d _ hd hm, is_rightmost_node d a hd ha, shr_bit d hd]
  refine ⟨rfl, ?_, ?_, by decide, by decide⟩
  · rw [decide_eq_true_eq]
    intro e
    rw [e, Nat.mod_self, make_eq_node d 0 hd]
    simp
  · rw [decide_eq_false_iff_not]
    intro e
    rw [Nat.mod_eq_of_lt (by omega), Nat.add_mul, Nat.one_mul]

theorem frag_next_wraps_witness :
    ceph_frag_bits (ceph_frag_next 0x02c00000) = ceph_frag_bits 0x02c00000 ∧
    (ceph_frag_is_rightmost 0x02c00000 = true →
      ceph_frag_next 0x02c00000 = ceph_frag_make (ceph_frag_bits 0x02c00000) 0) ∧
    (ceph_frag_is_rightmost 0x02c00000 = false →
      ceph_frag_value (ceph_frag_next 0x02c00000) =
        ceph_frag_value 0x02c00000 + (0x1000000 >>> ceph_frag_bits 0x02c00000)) ∧
    ceph_frag_is_rightmost (ceph_frag_make 0 0) = true ∧
    ceph_frag_next (ceph_frag_make 0 0) = ceph_frag_make 0 0 :=
  frag_next_wraps 0x02c00000 (by decide)

/-- C20: a well-formed frag denotes a contiguous interval of the 24-bit space: for
`v < 2^24`, `ceph_frag_contains_value f v` is true exactly when
`ceph_frag_value f ≤ v < ceph_frag_value f + 2^(24 - ceph_frag_bits f)`.  So
`ceph_frag_make 1 0` contains `0x123456` and does not contain `0x923456`. -/
theorem frag_contains_value_interval (f v : Nat) (hf : wellFormed f) (hv : v < 2 ^ 24) :
    (ceph_frag_contains_value f v = true ↔
      ceph_frag_value f ≤ v ∧ v < ceph_frag_value f + 2 ^ (24 - ceph_frag_bits f)) ∧
    ceph_frag_contains_value (ceph_frag_make 1 0) 0x123456 = true ∧
    ceph_frag_contains_value (ceph_frag_make 1 0) 0x923456 = false := by
  obtain ⟨d, a, hd, ha, rfl⟩ := wf_cases f hf
  have hpos : 0 < 2 ^ (24 - d) := by positivity
  rw [contains_value_node d a v hd ha, node_value d a hd ha, node_bits d a hd ha,
    Nat.mod_eq_of_lt hv, decide_eq_true_eq]
  refine ⟨?_, by decide, by decide⟩
  have h1 : a ≤ v / 2 ^ (24 - d) ↔ a * 2 ^ (24 - d) ≤ v := Nat.le_div_iff_mul_le hpos
  have h2 : v / 2 ^ (24 - d) < a + 1 ↔ v < a * 2 ^ (24 - d) + 2 ^ (24 - d) := by
    rw [Nat.div_lt_iff_lt_mul hpos, Nat.add_mul, Nat.one_mul]
  rw [← h1, ← h2]
  omega

theorem frag_contains_value_interval_witness :
    (ceph_frag_contains_value 0x02400000 0x5abcde = true ↔
      ceph_frag_value 0x02400000 ≤ 0x5abcde ∧
        0x5abcde < ceph_frag_value 0x02400000 + 2 ^ (24 - ceph_frag_bits 0x02400000)) ∧
    ceph_frag_contains_value (ceph_frag_make 1 0) 0x123456 = true ∧
    ceph_frag_contains_value (ceph_frag_make 1 0) 0x923456 = false :=
  frag_contains_value_interval 0x02400000 0x5abcde (by decide) (by decide)

end CephFrag
